import Mathlib

/-!
# SocialCalc format utilities (`pkg/socialcalc.go`)

A shallow embedding of the Go package `utils`: the compact (MSC) to expanded
(SocialCalc) parser, the converter back, the default document, the escape
codec, the coordinate codec and the validator.

Modelling conventions.

* A Go `string` is modelled as the list of its Unicode code points
  (`Str = List Char`), i.e. the text is taken to be valid UTF-8.
* A Go `int` is the 64-bit signed integer: values are `Int`, and the one place
  where the source can overflow (the column accumulation of
  `CoordinateToRowCol`) wraps explicitly with `wrapInt64`.
* A Go `error` result is `Except Str _`, the error carrying the message that
  `fmt.Errorf` builds.
* The standard-library functions the source calls (`strings.TrimSpace`,
  `strings.Split`, `strings.SplitN`, `strings.Join`, `strings.HasPrefix`,
  `strings.TrimPrefix`, `strings.ReplaceAll`, `strconv.Atoi`, `%d` formatting
  and the regular expression `^[A-Z]+[0-9]+$`) are modelled by their
  documented behaviour under their Go names.
-/

namespace SocialCalc

/-- Go strings, as sequences of code points. -/
abbrev Str := List Char

deriving instance DecidableEq for Except

/-! ## The Go standard library functions used by the source -/

/-- Model of `unicode.IsSpace`: the Latin-1 spaces and the code points with the
Unicode White_Space property. -/
def isSpace (c : Char) : Bool :=
  c.toNat = 9 || c.toNat = 10 || c.toNat = 11 || c.toNat = 12 || c.toNat = 13 ||
  c.toNat = 32 || c.toNat = 0x85 || c.toNat = 0xA0 || c.toNat = 0x1680 ||
  (0x2000 ≤ c.toNat && c.toNat ≤ 0x200A) || c.toNat = 0x2028 || c.toNat = 0x2029 ||
  c.toNat = 0x202F || c.toNat = 0x205F || c.toNat = 0x3000

/-- Leading white space removed. -/
def trimLeft (s : Str) : Str := s.dropWhile isSpace

/-- Trailing white space removed. -/
def trimRight (s : Str) : Str := (s.reverse.dropWhile isSpace).reverse

/-- Model of `strings.TrimSpace`: leading and trailing white space removed. -/
def TrimSpace (s : Str) : Str := trimRight (trimLeft s)

/-- Model of `strings.HasPrefix`. -/
def HasPrefix (s p : Str) : Bool := p.isPrefixOf s

/-- Model of `strings.TrimPrefix`. -/
def TrimPrefix (s p : Str) : Str := if HasPrefix s p then s.drop p.length else s

/-- Prepend a character to the first piece of a split. -/
def consHead (c : Char) : List Str → List Str
  | [] => [[c]]
  | h :: t => (c :: h) :: t

/-- Left-to-right scan of `strings.Split` for a non-empty separator; the first
argument counts the characters of a matched separator still to be skipped. -/
def splitGo (sep : Str) : Nat → Str → List Str
  | _, [] => [[]]
  | k + 1, _ :: cs => splitGo sep k cs
  | 0, c :: cs =>
    if sep.isPrefixOf (c :: cs) then [] :: splitGo sep (sep.length - 1) cs
    else consHead c (splitGo sep 0 cs)

/-- Model of `strings.Split`. -/
def Split (s sep : Str) : List Str :=
  if sep = [] then s.map (fun c => [c]) else splitGo sep 0 s

/-- Scan of `strings.SplitN` for a non-empty separator: as `splitGo`, with a
budget of separators that may still be consumed. -/
def splitNGo (sep : Str) : Nat → Nat → Str → List Str
  | _, _, [] => [[]]
  | b, k + 1, _ :: cs => splitNGo sep b k cs
  | 0, 0, c :: cs => [c :: cs]
  | b + 1, 0, c :: cs =>
    if sep.isPrefixOf (c :: cs) then [] :: splitNGo sep b (sep.length - 1) cs
    else consHead c (splitNGo sep (b + 1) 0 cs)

/-- Model of `strings.SplitN`. -/
def SplitN (s sep : Str) (n : Int) : List Str :=
  if n = 0 then []
  else if n < 0 then Split s sep
  else if sep = [] then
    (if s.length ≤ n.toNat then s.map (fun c => [c])
     else (s.take (n.toNat - 1)).map (fun c => [c]) ++ [s.drop (n.toNat - 1)])
  else splitNGo sep (n.toNat - 1) 0 s

/-- Model of `strings.Join`. -/
def Join : List Str → Str → Str
  | [], _ => []
  | [a], _ => a
  | a :: b :: rest, sep => a ++ sep ++ Join (b :: rest) sep

/-- Scan of `strings.ReplaceAll` for a non-empty pattern: non-overlapping
occurrences are replaced from left to right. -/
def replaceGo (old new : Str) : Nat → Str → Str
  | _, [] => []
  | k + 1, _ :: cs => replaceGo old new k cs
  | 0, c :: cs =>
    if old.isPrefixOf (c :: cs) then new ++ replaceGo old new (old.length - 1) cs
    else c :: replaceGo old new 0 cs

/-- Model of `strings.ReplaceAll`. -/
def ReplaceAll (s old new : Str) : Str :=
  if old = [] then new ++ (s.map (fun c => c :: new)).flatten else replaceGo old new 0 s

/-- Decimal digit test, `'0' <= c && c <= '9'`. -/
def isDigit (c : Char) : Bool := 48 ≤ c.toNat && c.toNat ≤ 57

/-- Upper-case ASCII letter test, the class `[A-Z]`. -/
def isUpper (c : Char) : Bool := 65 ≤ c.toNat && c.toNat ≤ 90

/-- Value of a run of decimal digits. -/
def digitsValue (ds : Str) : Nat :=
  ds.foldl (fun acc d => acc * 10 + (d.toNat - 48)) 0

/-- Model of `strconv.Atoi` for the 64-bit `int`: an optional sign, then one or
more decimal digits; `none` stands for a syntax or range error. -/
def Atoi (s : Str) : Option Int :=
  match s with
  | [] => none
  | c :: rest =>
    let neg := c = '-'
    let ds := if c = '-' ∨ c = '+' then rest else s
    if ds = [] then none
    else if !ds.all isDigit then none
    else if neg then
      (if digitsValue ds ≤ 2 ^ 63 then some (-(digitsValue ds : Int)) else none)
    else
      (if digitsValue ds < 2 ^ 63 then some (digitsValue ds : Int) else none)

/-- The digits of `n`, most significant first, pushed in front of `acc`. -/
def fmtNatAux : Nat → Nat → Str → Str
  | 0, _, acc => acc
  | fuel + 1, n, acc =>
    if n < 10 then Char.ofNat (48 + n) :: acc
    else fmtNatAux fuel (n / 10) (Char.ofNat (48 + n % 10) :: acc)

/-- Model of `%d` for a non-negative integer. -/
def fmtNat (n : Nat) : Str := fmtNatAux (n + 1) n []

/-- Model of `%d` for an `int`. -/
def fmtInt (i : Int) : Str :=
  if i < 0 then '-' :: fmtNat i.natAbs else fmtNat i.natAbs

/-- Two's-complement wrap-around of the 64-bit `int`. -/
def wrapInt64 (x : Int) : Int := (x + 2 ^ 63) % 2 ^ 64 - 2 ^ 63

/-! ## The source: helper functions -/

/-- Source `isValidCoordinate`: a match of the regular expression
`^[A-Z]+[0-9]+$`, computed by consuming the longest run of upper-case letters
and requiring the non-empty remainder to consist of digits. -/
def isValidCoordinate (coord : Str) : Bool :=
  !(coord.takeWhile isUpper).isEmpty &&
  !(coord.dropWhile isUpper).isEmpty &&
  (coord.dropWhile isUpper).all isDigit

/-- Source `escapeForSocialCalc`: three whole-string replacements in sequence. -/
def escapeForSocialCalc (value : Str) : Str :=
  let value := ReplaceAll value "\\".toList "\\b".toList
  let value := ReplaceAll value "\n".toList "\\n".toList
  let value := ReplaceAll value ":".toList "\\c".toList
  value

/-- Source `unescapeFromSocialCalc`: the mirrored replacements. -/
def unescapeFromSocialCalc (value : Str) : Str :=
  let value := ReplaceAll value "\\c".toList ":".toList
  let value := ReplaceAll value "\\n".toList "\n".toList
  let value := ReplaceAll value "\\b".toList "\\".toList
  value

/-! ## The source: the exported functions -/

/-- Body of the `for` loop of `ParseTouchCalcMSC`: the lines collected so far and
the next input line give the lines collected after it. -/
def parseStep (socialCalcLines : List Str) (line : Str) : List Str :=
  let line := TrimSpace line
  if line = [] then socialCalcLines
  else
    match SplitN line ":".toList 2 with
    | [p0, p1] =>
      let coord := TrimSpace p0
      let value := TrimSpace p1
      if !isValidCoordinate coord then socialCalcLines
      else if HasPrefix value "=".toList then
        let formula := TrimPrefix value "=".toList
        socialCalcLines ++ ["cell:".toList ++ coord ++ ":vtf:n:0:".toList ++ formula]
      else
        let escapedValue := escapeForSocialCalc value
        socialCalcLines ++ ["cell:".toList ++ coord ++ ":t:".toList ++ escapedValue]
    | _ => socialCalcLines

/-- Source `ParseTouchCalcMSC`. -/
def ParseTouchCalcMSC (mscData : Str) : Except Str Str :=
  let lines := Split (TrimSpace mscData) "\n".toList
  let socialCalcLines := ["version:1.4".toList]
  let socialCalcLines := lines.foldl parseStep socialCalcLines
  let socialCalcLines := socialCalcLines ++ ["sheet:c:10:r:20".toList]
  .ok (Join socialCalcLines "\n".toList)

/-- Body of the `for` loop of `ConvertSocialCalcToMSC`. The `switch` yields
`none` on its `default: continue` branch. -/
def convertStep (mscLines : List Str) (line : Str) : List Str :=
  let line := TrimSpace line
  if !HasPrefix line "cell:".toList then mscLines
  else
    let parts := Split line ":".toList
    if parts.length < 4 then mscLines
    else
      let coord := parts.getD 1 []
      let cellType := parts.getD 2 []
      let value : Option Str :=
        if cellType = "t".toList then
          some (if 4 ≤ parts.length then unescapeFromSocialCalc (parts.getD 3 []) else [])
        else if cellType = "v".toList then
          some (if 4 ≤ parts.length then parts.getD 3 [] else [])
        else if cellType = "vtf".toList then
          some (if 6 ≤ parts.length then "=".toList ++ parts.getD 5 [] else [])
        else none
      match value with
      | none => mscLines
      | some value =>
        if value ≠ [] then mscLines ++ [coord ++ ":".toList ++ value] else mscLines

/-- Source `ConvertSocialCalcToMSC`. -/
def ConvertSocialCalcToMSC (socialCalcData : Str) : Str :=
  let lines := Split socialCalcData "\n".toList
  Join (lines.foldl convertStep []) "\n".toList

/-- Source `CreateDefaultTouchCalcData`. -/
def CreateDefaultTouchCalcData (storageBackend : Str) : Str :=
  let defaultData : List Str := [
    "version:1.4".toList,
    "cell:A1:t:TouchCalc Spreadsheet".toList,
    "cell:B1:t:Welcome to your cloud spreadsheet!".toList,
    "cell:A2:t:Cell A2".toList,
    "cell:B2:t:Cell B2".toList,
    "cell:C2:vtf:n:0:A2+B2".toList,
    "cell:A3:t:Data automatically saves to the cloud".toList,
    "cell:B3:t:Storage Backend:".toList,
    "cell:C3:t:".toList ++ storageBackend,
    "cell:A5:t:Try these features:".toList,
    "cell:B5:t:• Edit any cell by clicking".toList,
    "cell:B6:t:• Use formulas like =A1+B1".toList,
    "cell:B7:t:• Auto-save every 30 seconds".toList,
    "cell:B8:t:• Export to CSV or Excel".toList,
    "sheet:c:10:r:20".toList]
  Join defaultData "\n".toList

/-- The first `for` loop of `CoordinateToRowCol`: at the first digit the text is
cut into `(coord[:i], coord[i:])`; `none` when the loop ends without a `break`. -/
def cutAtFirstDigit : Str → Option (Str × Str)
  | [] => none
  | c :: cs =>
    if isDigit c then some ([], c :: cs)
    else (cutAtFirstDigit cs).map (fun p => (c :: p.1, p.2))

/-- The second `for` loop of `CoordinateToRowCol`:
`col = col*26 + int(char-'A') + 1` over the column letters, in 64-bit `int`. -/
def colOfLetters (colPart : Str) : Int :=
  colPart.foldl (fun col char => wrapInt64 (col * 26 + ((char.toNat : Int) - 65) + 1)) 0

/-- Source `CoordinateToRowCol`; the result is `(row, col)`. -/
def CoordinateToRowCol (coord : Str) : Except Str (Int × Int) :=
  if !isValidCoordinate coord then .error ("invalid coordinate: ".toList ++ coord)
  else
    let (colPart, rowPart) := (cutAtFirstDigit coord).getD ([], [])
    let col := colOfLetters colPart
    match Atoi rowPart with
    | none => .error ("invalid row number in coordinate: ".toList ++ coord)
    | some row => .ok (row, col)

/-- The `for col > 0` loop of `RowColToCoordinate`, with the letters found so
far in `colStr`; the first argument bounds the number of iterations. -/
def colLoop : Nat → Int → Str → Str
  | 0, _, colStr => colStr
  | fuel + 1, col, colStr =>
    if col > 0 then
      let col := col - 1
      colLoop fuel (col / 26) (Char.ofNat (65 + col % 26).toNat :: colStr)
    else colStr

/-- Source `RowColToCoordinate`. Every iteration of the loop makes `col`
smaller, so `col` iterations are enough. -/
def RowColToCoordinate (row col : Int) : Str :=
  if row < 1 ∨ col < 1 then []
  else colLoop col.toNat col [] ++ fmtInt row

/-- The `for` loop of `ValidateSocialCalcData` over the lines from index `i` on,
with the flag `hasVersion`; an error ends the loop, otherwise the final flag is
returned. -/
def validateLoop : List Str → Nat → Bool → Except Str Bool
  | [], _, hasVersion => .ok hasVersion
  | line :: rest, i, hasVersion =>
    let line := TrimSpace line
    if line = [] then validateLoop rest (i + 1) hasVersion
    else if HasPrefix line "version:".toList then validateLoop rest (i + 1) true
    else if HasPrefix line "cell:".toList then
      let parts := Split line ":".toList
      if parts.length < 4 then
        .error ("invalid cell definition at line ".toList ++ fmtNat (i + 1) ++ ": ".toList ++ line)
      else
        let coord := parts.getD 1 []
        if !isValidCoordinate coord then
          .error ("invalid coordinate at line ".toList ++ fmtNat (i + 1) ++ ": ".toList ++ coord)
        else validateLoop rest (i + 1) hasVersion
    else validateLoop rest (i + 1) hasVersion

/-- Source `ValidateSocialCalcData`; `.ok ()` is the `nil` error. -/
def ValidateSocialCalcData (data : Str) : Except Str Unit :=
  let lines := Split data "\n".toList
  match validateLoop lines 0 false with
  | .error e => .error e
  | .ok hasVersion =>
    if !hasVersion then .error "missing version header".toList else .ok ()

/-! ## Specification-level notions -/

/-- The Coordinate grammar `[A-Z]+[0-9]+`: one or more upper-case letters
followed by one or more digits and nothing else. -/
def IsCoordinate (s : Str) : Prop :=
  ∃ L D : Str, s = L ++ D ∧ L ≠ [] ∧ D ≠ [] ∧ (∀ c ∈ L, isUpper c = true) ∧
    (∀ c ∈ D, isDigit c = true)

/-- Bijective base-26 value of a run of letters, `A = 1`, ..., `Z = 26`,
without overflow. -/
def lettersValue (L : Str) : Nat :=
  L.foldl (fun v c => v * 26 + (c.toNat - 64)) 0

/-- Character-by-character escape: `\b` for a backslash, `\n` for a newline,
`\c` for a colon, the character itself otherwise. -/
def escapeChar (c : Char) : Str :=
  if c = '\\' then ['\\', 'b']
  else if c = '\n' then ['\\', 'n']
  else if c = ':' then ['\\', 'c']
  else [c]

/-- The compact line that the converter's description assigns to one line of
expanded text: for a trimmed line that starts with `cell:` and has at least 4
colon-separated fields, `<field 2>:<value>` where the value is the unescaped
field 4 for kind `t`, field 4 for kind `v`, and `=` followed by field 6 for kind
`vtf` with at least 6 fields, provided the value is not empty; nothing
otherwise. -/
def compactLineOf (rawLine : Str) : Option Str :=
  let fields := Split (TrimSpace rawLine) ":".toList
  if HasPrefix (TrimSpace rawLine) "cell:".toList = true ∧ 4 ≤ fields.length then
    let value : Str :=
      if fields.getD 2 [] = "t".toList then unescapeFromSocialCalc (fields.getD 3 [])
      else if fields.getD 2 [] = "v".toList then fields.getD 3 []
      else if fields.getD 2 [] = "vtf".toList ∧ 6 ≤ fields.length then
        "=".toList ++ fields.getD 5 []
      else []
    if value = [] then none else some (fields.getD 1 [] ++ ":".toList ++ value)
  else none

/-- The expanded record that the parser's description assigns to one line of
compact text: the line is trimmed; when it is non-blank and contains a colon,
the trimmed text before the first colon is the coordinate and the trimmed text
after it the value; when the coordinate matches the grammar the record is
`cell:<coord>:vtf:n:0:<value without its leading =>` for a value starting with
`=` and `cell:<coord>:t:<Escape(value)>` otherwise; nothing in all other
cases. -/
def recordOf (rawLine : Str) : Option Str :=
  let line := TrimSpace rawLine
  if line ≠ [] ∧ ':' ∈ line then
    let coord := TrimSpace (line.takeWhile (fun c => c != ':'))
    let value := TrimSpace ((line.dropWhile (fun c => c != ':')).drop 1)
    if isValidCoordinate coord = true then
      if value.head? = some '=' then
        some ("cell:".toList ++ coord ++ ":vtf:n:0:".toList ++ value.drop 1)
      else some ("cell:".toList ++ coord ++ ":t:".toList ++ escapeForSocialCalc value)
    else none
  else none

/-- Append a character to the last piece of a split. -/
def snocLast (c : Char) : List Str → List Str
  | [] => [[c]]
  | [l] => [l ++ [c]]
  | l :: rest => l :: snocLast c rest

/-- A line is a version record when, trimmed, it starts with `version:`. -/
def IsVersionLine (l : Str) : Prop := HasPrefix (TrimSpace l) "version:".toList = true

/-- A line passes the cell check of the validator: if, trimmed, it starts with
`cell:`, then it splits on colon into at least 4 fields and its second field
matches the Coordinate grammar. -/
def WellFormedCell (l : Str) : Prop :=
  HasPrefix (TrimSpace l) "cell:".toList = true →
    4 ≤ (Split (TrimSpace l) ":".toList).length ∧
      isValidCoordinate ((Split (TrimSpace l) ":".toList).getD 1 []) = true

/-- The message of the validator for a cell record with fewer than 4 fields. -/
def malformedCellError (lineNo : Nat) (text : Str) : Str :=
  "invalid cell definition at line ".toList ++ fmtNat lineNo ++ ": ".toList ++ text

/-- The message of the validator for a cell record with an invalid coordinate. -/
def invalidCoordinateError (lineNo : Nat) (coord : Str) : Str :=
  "invalid coordinate at line ".toList ++ fmtNat lineNo ++ ": ".toList ++ coord

/-- An error message cites a line of the input: it contains the decimal 1-based
number of some line of the input together with the raw text of that line. -/
def CitesLine (data e : Str) : Prop :=
  ∃ (j : Nat) (l : Str), (Split data "\n".toList)[j]? = some l ∧
    fmtNat (j + 1) <:+: e ∧ l <:+: e

/-- Positional reading of a run of letters: the sum over the positions of the
letter index (`A = 1`, ..., `Z = 26`) times 26 to the power of the distance
from the last letter. -/
def base26Sum : Str → Nat
  | [] => 0
  | c :: cs => (c.toNat - 64) * 26 ^ cs.length + base26Sum cs

/-- Positional reading of a run of digits: the sum over the positions of the
digit times 10 to the power of the distance from the last digit. -/
def decimalSum : Str → Nat
  | [] => 0
  | c :: cs => (c.toNat - 48) * 10 ^ cs.length + decimalSum cs

/-! ## Lemmas: coordinates -/

theorem isUpper_of_isDigit {c : Char} (h : isDigit c = true) : isUpper c = false := by
  simp only [isDigit, isUpper, Bool.and_eq_true, decide_eq_true_eq, Bool.and_eq_false_imp] at *
  intro _
  simp only [decide_eq_false_iff_not]
  omega

theorem isDigit_of_isUpper {c : Char} (h : isUpper c = true) : isDigit c = false := by
  cases hd : isDigit c
  · rfl
  · rw [isUpper_of_isDigit hd] at h
    exact absurd h (by decide)

theorem takeWhile_upper_append (L D : Str) (hL : ∀ c ∈ L, isUpper c = true)
    (hD : ∀ c ∈ D, isDigit c = true) : (L ++ D).takeWhile isUpper = L := by
  induction L with
  | nil =>
    cases D with
    | nil => rfl
    | cons d D =>
      simp [List.takeWhile, isUpper_of_isDigit (hD d (List.mem_cons_self _ _))]
  | cons a L ih =>
    have ha := hL a (List.mem_cons_self _ _)
    rw [List.cons_append, List.takeWhile_cons, ha]
    simp only [↓reduceIte, List.cons.injEq, true_and]
    exact ih (fun c hc => hL c (List.mem_cons_of_mem _ hc))

theorem dropWhile_upper_append (L D : Str) (hL : ∀ c ∈ L, isUpper c = true)
    (hD : ∀ c ∈ D, isDigit c = true) : (L ++ D).dropWhile isUpper = D := by
  induction L with
  | nil =>
    cases D with
    | nil => rfl
    | cons d D =>
      simp [List.dropWhile, isUpper_of_isDigit (hD d (List.mem_cons_self _ _))]
  | cons a L ih =>
    have ha := hL a (List.mem_cons_self _ _)
    rw [List.cons_append, List.dropWhile_cons, ha]
    simp only [↓reduceIte]
    exact ih (fun c hc => hL c (List.mem_cons_of_mem _ hc))

/-- The matcher of `isValidCoordinate` decides the Coordinate grammar. -/
theorem isValidCoordinate_iff (s : Str) : isValidCoordinate s = true ↔ IsCoordinate s := by
  constructor
  · intro h
    simp only [isValidCoordinate, Bool.and_eq_true, Bool.not_eq_true', List.isEmpty_eq_false,
      List.all_eq_true] at h
    obtain ⟨⟨h1, h2⟩, h3⟩ := h
    refine ⟨s.takeWhile isUpper, s.dropWhile isUpper,
      (List.takeWhile_append_dropWhile isUpper s).symm, ?_, ?_, ?_, h3⟩
    · intro h; rw [h] at h1; simp at h1
    · intro h; rw [h] at h2; simp at h2
    · intro c hc; exact (List.mem_takeWhile_imp hc)
  · rintro ⟨L, D, rfl, hL, hD, hLu, hDd⟩
    simp only [isValidCoordinate, takeWhile_upper_append L D hLu hDd,
      dropWhile_upper_append L D hLu hDd, Bool.and_eq_true, Bool.not_eq_true',
      List.all_eq_true]
    refine ⟨⟨?_, ?_⟩, hDd⟩
    · cases L with
      | nil => exact absurd rfl hL
      | cons a L => rfl
    · cases D with
      | nil => exact absurd rfl hD
      | cons a D => rfl

theorem cutAtFirstDigit_append (L D : Str) (hL : ∀ c ∈ L, isUpper c = true)
    (hD : ∀ c ∈ D, isDigit c = true) (hne : D ≠ []) :
    cutAtFirstDigit (L ++ D) = some (L, D) := by
  induction L with
  | nil =>
    cases D with
    | nil => exact absurd rfl hne
    | cons d D =>
      simp [cutAtFirstDigit, hD d (List.mem_cons_self _ _)]
  | cons a L ih =>
    have ha := isDigit_of_isUpper (hL a (List.mem_cons_self _ _))
    rw [List.cons_append, cutAtFirstDigit, ha,
      ih (fun c hc => hL c (List.mem_cons_of_mem _ hc))]
    rfl

theorem wrapInt64_of_range (x : Int) (h0 : 0 ≤ x) (h1 : x < 2 ^ 63) : wrapInt64 x = x := by
  unfold wrapInt64
  omega

theorem lettersValue_snoc (L : Str) (c : Char) :
    lettersValue (L ++ [c]) = lettersValue L * 26 + (c.toNat - 64) := by
  simp [lettersValue, List.foldl_append]

theorem colOfLetters_snoc (L : Str) (c : Char) :
    colOfLetters (L ++ [c]) = wrapInt64 (colOfLetters L * 26 + ((c.toNat : Int) - 65) + 1) := by
  simp [colOfLetters, List.foldl_append]

/-- Without overflow the column loop computes the bijective base-26 value. -/
theorem colOfLetters_eq (L : Str) (hL : ∀ c ∈ L, isUpper c = true)
    (hv : lettersValue L < 2 ^ 63) : colOfLetters L = (lettersValue L : Int) := by
  induction L using List.reverseRecOn with
  | nil => rfl
  | append_singleton L c ih =>
    rw [lettersValue_snoc] at hv
    have hc : isUpper c = true := hL c (by simp)
    simp only [isUpper, Bool.and_eq_true, decide_eq_true_eq] at hc
    have hv2 : lettersValue L < 2 ^ 63 := by omega
    rw [colOfLetters_snoc, ih (fun x hx => hL x (by simp [hx])) hv2, lettersValue_snoc]
    rw [wrapInt64_of_range] <;> omega

theorem toNat_ofNat_small : ∀ n, n < 128 → (Char.ofNat n).toNat = n := by decide

theorem digitsValue_snoc (D : Str) (d : Char) :
    digitsValue (D ++ [d]) = digitsValue D * 10 + (d.toNat - 48) := by
  simp [digitsValue, List.foldl_append]

/-- On a non-empty run of digits `Atoi` fails exactly on overflow. -/
theorem Atoi_digits (D : Str) (hne : D ≠ []) (hD : ∀ c ∈ D, isDigit c = true) :
    Atoi D = if digitsValue D < 2 ^ 63 then some (digitsValue D : Int) else none := by
  cases D with
  | nil => exact absurd rfl hne
  | cons c rest =>
    have hc := hD c (List.mem_cons_self _ _)
    have h1 : c ≠ '-' := by
      rintro rfl
      exact absurd hc (by decide)
    have h2 : c ≠ '+' := by
      rintro rfl
      exact absurd hc (by decide)
    have hall : (c :: rest).all isDigit = true := List.all_eq_true.mpr hD
    simp only [Atoi, h1, h2, or_self, if_false, hall, Bool.not_true, decide_False,
      Bool.false_eq_true, reduceCtorEq]

theorem fmtNatAux_spec : ∀ (fuel n : Nat) (acc : Str), n < fuel →
    ∃ D : Str, fmtNatAux fuel n acc = D ++ acc ∧ D ≠ [] ∧ (∀ c ∈ D, isDigit c = true) ∧
      digitsValue D = n := by
  intro fuel
  induction fuel with
  | zero => intro n acc h; omega
  | succ fuel ih =>
    intro n acc h
    by_cases hn : n < 10
    · refine ⟨[Char.ofNat (48 + n)], ?_, by simp, ?_, ?_⟩
      · simp [fmtNatAux, hn]
      · intro c hc
        rw [List.mem_singleton] at hc
        subst hc
        simp only [isDigit, toNat_ofNat_small (48 + n) (by omega), Bool.and_eq_true,
          decide_eq_true_eq]
        omega
      · simp only [digitsValue, List.foldl, toNat_ofNat_small (48 + n) (by omega)]
        omega
    · obtain ⟨D, hD1, _, hD3, hD4⟩ :=
        ih (n / 10) (Char.ofNat (48 + n % 10) :: acc) (by omega)
      refine ⟨D ++ [Char.ofNat (48 + n % 10)], ?_, by simp, ?_, ?_⟩
      · simp only [fmtNatAux, hn, if_false, hD1, List.append_assoc, List.singleton_append]
      · intro c hc
        rw [List.mem_append, List.mem_singleton] at hc
        rcases hc with hc | hc
        · exact hD3 c hc
        · subst hc
          simp only [isDigit, toNat_ofNat_small (48 + n % 10) (by omega), Bool.and_eq_true,
            decide_eq_true_eq]
          omega
      · rw [digitsValue_snoc, hD4, toNat_ofNat_small (48 + n % 10) (by omega)]
        omega

theorem fmtNat_spec (n : Nat) :
    fmtNat n ≠ [] ∧ (∀ c ∈ fmtNat n, isDigit c = true) ∧ digitsValue (fmtNat n) = n := by
  obtain ⟨D, h1, h2, h3, h4⟩ := fmtNatAux_spec (n + 1) n [] (by omega)
  have : fmtNat n = D := by simp [fmtNat, h1]
  rw [this]
  exact ⟨h2, h3, h4⟩

theorem colLoop_spec : ∀ (fuel n : Nat) (acc : Str), n ≤ fuel →
    ∃ L : Str, colLoop fuel (n : Int) acc = L ++ acc ∧ (∀ c ∈ L, isUpper c = true) ∧
      lettersValue L = n ∧ (0 < n → L ≠ []) := by
  intro fuel
  induction fuel with
  | zero =>
    intro n acc h
    have : n = 0 := by omega
    subst this
    exact ⟨[], rfl, by simp, rfl, by simp⟩
  | succ fuel ih =>
    intro n acc h
    by_cases hn : n = 0
    · subst hn
      exact ⟨[], by simp [colLoop], by simp, rfl, by simp⟩
    · have hpos : (n : Int) > 0 := by omega
      have hq : ((n : Int) - 1) / 26 = (((n - 1) / 26 : Nat) : Int) := by omega
      have hr : (65 + ((n : Int) - 1) % 26).toNat = 65 + (n - 1) % 26 := by omega
      obtain ⟨L, hL1, hL2, hL3, _⟩ :=
        ih ((n - 1) / 26) (Char.ofNat (65 + (n - 1) % 26) :: acc) (by omega)
      refine ⟨L ++ [Char.ofNat (65 + (n - 1) % 26)], ?_, ?_, ?_, by simp⟩
      · simp only [colLoop, hpos, if_true, hq, hr, hL1, List.append_assoc,
          List.singleton_append]
      · intro c hc
        rw [List.mem_append, List.mem_singleton] at hc
        rcases hc with hc | hc
        · exact hL2 c hc
        · subst hc
          simp only [isUpper, toNat_ofNat_small (65 + (n - 1) % 26) (by omega),
            Bool.and_eq_true, decide_eq_true_eq]
          omega
      · rw [lettersValue_snoc, hL3, toNat_ofNat_small (65 + (n - 1) % 26) (by omega)]
        omega

/-- What `CoordinateToRowCol` returns on letters followed by digits. -/
theorem CoordinateToRowCol_append (L D : Str) (hL : L ≠ []) (hD : D ≠ [])
    (hLu : ∀ c ∈ L, isUpper c = true) (hDd : ∀ c ∈ D, isDigit c = true) :
    CoordinateToRowCol (L ++ D) =
      if digitsValue D < 2 ^ 63 then .ok ((digitsValue D : Int), colOfLetters L)
      else .error ("invalid row number in coordinate: ".toList ++ (L ++ D)) := by
  have hv : isValidCoordinate (L ++ D) = true :=
    (isValidCoordinate_iff _).mpr ⟨L, D, rfl, hL, hD, hLu, hDd⟩
  simp only [CoordinateToRowCol, hv, Bool.not_true, Bool.false_eq_true, if_false,
    cutAtFirstDigit_append L D hLu hDd hD, Option.getD_some, Atoi_digits D hD hDd]
  split_ifs <;> rfl

/-- Decoding an encoded pair gives the pair back, for all positive 64-bit values. -/
theorem decode_encode (row col : Int) (hr : 1 ≤ row) (hr2 : row < 2 ^ 63) (hc : 1 ≤ col)
    (hc2 : col < 2 ^ 63) : CoordinateToRowCol (RowColToCoordinate row col) = .ok (row, col) := by
  obtain ⟨n, rfl⟩ : ∃ n : Nat, col = (n : Int) := ⟨col.toNat, by omega⟩
  obtain ⟨m, rfl⟩ : ∃ m : Nat, row = (m : Int) := ⟨row.toNat, by omega⟩
  obtain ⟨L, hL1, hL2, hL3, hL4⟩ := colLoop_spec n n [] (le_refl _)
  obtain ⟨hD1, hD2, hD3⟩ := fmtNat_spec m
  have hrow : ¬ ((m : Int) < 1 ∨ (n : Int) < 1) := by omega
  have hneg : ¬ ((m : Int) < 0) := by omega
  simp only [RowColToCoordinate, hrow, if_false, Int.toNat_ofNat, hL1, List.append_nil, fmtInt,
    hneg, Int.natAbs_ofNat]
  rw [CoordinateToRowCol_append L (fmtNat m) (hL4 (by omega)) hD1 hL2 hD2, hD3,
    colOfLetters_eq L hL2 (by rw [hL3]; exact_mod_cast hc2), hL3]
  have : m < 2 ^ 63 := by exact_mod_cast hr2
  rw [if_pos this]

theorem lettersValue_pos (L : Str) (hL : L ≠ []) (hLu : ∀ c ∈ L, isUpper c = true) :
    1 ≤ lettersValue L := by
  induction L using List.reverseRecOn with
  | nil => exact absurd rfl hL
  | append_singleton L c _ =>
    have hc : isUpper c = true := hLu c (by simp)
    simp only [isUpper, Bool.and_eq_true, decide_eq_true_eq] at hc
    rw [lettersValue_snoc]
    omega

theorem toNat_ne_of_ne {c d : Char} (h : c ≠ d) : c.toNat ≠ d.toNat := by
  intro e
  apply h
  rw [← Char.ofNat_toNat c, ← Char.ofNat_toNat d, e]

theorem digitsValue_pos (D : Str) (hD : D ≠ []) (hDd : ∀ c ∈ D, isDigit c = true)
    (hz : D.head? ≠ some '0') : 1 ≤ digitsValue D := by
  induction D using List.reverseRecOn with
  | nil => exact absurd rfl hD
  | append_singleton D d ih =>
    rw [digitsValue_snoc]
    cases D with
    | nil =>
      have hd : d ≠ '0' := by
        intro e
        apply hz
        simp [e]
      have h48 := toNat_ne_of_ne hd
      have hdd : isDigit d = true := hDd d (by simp)
      simp only [isDigit, Bool.and_eq_true, decide_eq_true_eq] at hdd
      have : ('0' : Char).toNat = 48 := rfl
      omega
    | cons a D =>
      have := ih (by simp) (fun c hc => hDd c (by simp at hc ⊢; tauto)) (by simpa using hz)
      omega

/-- The letter loop of `RowColToCoordinate` rebuilds a run of letters from its
value. -/
theorem colLoop_lettersValue (L : Str) (hLu : ∀ c ∈ L, isUpper c = true) :
    ∀ (fuel : Nat) (acc : Str), lettersValue L ≤ fuel →
      colLoop fuel (lettersValue L : Int) acc = L ++ acc := by
  induction L using List.reverseRecOn with
  | nil =>
    intro fuel acc _
    cases fuel <;> simp [colLoop, lettersValue]
  | append_singleton L c ih =>
    intro fuel acc hf
    have hc : isUpper c = true := hLu c (by simp)
    simp only [isUpper, Bool.and_eq_true, decide_eq_true_eq] at hc
    rw [lettersValue_snoc] at hf ⊢
    cases fuel with
    | zero => omega
    | succ fuel =>
      have hpos : ((lettersValue L * 26 + (c.toNat - 64) : Nat) : Int) > 0 := by omega
      have hq : (((lettersValue L * 26 + (c.toNat - 64) : Nat) : Int) - 1) / 26 =
          (lettersValue L : Int) := by omega
      have hr : (65 + (((lettersValue L * 26 + (c.toNat - 64) : Nat) : Int) - 1) % 26).toNat =
          c.toNat := by omega
      simp only [colLoop, hpos, if_true, hq, hr, Char.ofNat_toNat]
      rw [ih (fun x hx => hLu x (by simp [hx])) fuel (c :: acc) (by omega)]
      simp

theorem fmtNatAux_digitsValue (D : Str) (hD : D ≠ []) (hDd : ∀ c ∈ D, isDigit c = true)
    (hz : D.head? ≠ some '0') :
    ∀ (fuel : Nat) (acc : Str), digitsValue D < fuel →
      fmtNatAux fuel (digitsValue D) acc = D ++ acc := by
  induction D using List.reverseRecOn with
  | nil => exact absurd rfl hD
  | append_singleton D d ih =>
    intro fuel acc hf
    have hdd : isDigit d = true := hDd d (by simp)
    simp only [isDigit, Bool.and_eq_true, decide_eq_true_eq] at hdd
    rw [digitsValue_snoc] at hf ⊢
    cases fuel with
    | zero => omega
    | succ fuel =>
      cases D with
      | nil =>
        have h0 : digitsValue [] = 0 := rfl
        have hlt : 0 * 10 + (d.toNat - 48) < 10 := by omega
        have he : 48 + (0 * 10 + (d.toNat - 48)) = d.toNat := by omega
        simp only [fmtNatAux, h0, hlt, if_true, he, Char.ofNat_toNat, List.nil_append,
          List.singleton_append]
      | cons a D =>
        have hDd2 : ∀ c ∈ a :: D, isDigit c = true := fun c hc => hDd c (by simp at hc ⊢; tauto)
        have hz2 : (a :: D).head? ≠ some '0' := by simpa using hz
        have hp := digitsValue_pos (a :: D) (by simp) hDd2 hz2
        have hlt : ¬ digitsValue (a :: D) * 10 + (d.toNat - 48) < 10 := by omega
        have hq : (digitsValue (a :: D) * 10 + (d.toNat - 48)) / 10 = digitsValue (a :: D) := by
          omega
        have he : 48 + (digitsValue (a :: D) * 10 + (d.toNat - 48)) % 10 = d.toNat := by omega
        simp only [fmtNatAux, hlt, if_false, hq, he, Char.ofNat_toNat]
        rw [ih (by simp) hDd2 hz2 fuel (d :: acc) (by omega)]
        simp

/-- Encoding a decoded coordinate gives the coordinate back when its digit run
has no leading zero and its column value fits the `int` type. -/
theorem encode_decode (L D : Str) (hL : L ≠ []) (hD : D ≠ [])
    (hLu : ∀ c ∈ L, isUpper c = true) (hDd : ∀ c ∈ D, isDigit c = true)
    (hz : D.head? ≠ some '0') (hv : lettersValue L < 2 ^ 63) (row col : Int)
    (h : CoordinateToRowCol (L ++ D) = .ok (row, col)) :
    RowColToCoordinate row col = L ++ D := by
  rw [CoordinateToRowCol_append L D hL hD hLu hDd] at h
  split_ifs at h with hlt
  simp only [Except.ok.injEq, Prod.mk.injEq] at h
  obtain ⟨rfl, rfl⟩ := h
  rw [colOfLetters_eq L hLu hv]
  have h1 := lettersValue_pos L hL hLu
  have h2 := digitsValue_pos D hD hDd hz
  have hrow : ¬ ((digitsValue D : Int) < 1 ∨ (lettersValue L : Int) < 1) := by omega
  have hneg : ¬ ((digitsValue D : Int) < 0) := by omega
  simp only [RowColToCoordinate, hrow, if_false, Int.toNat_ofNat, fmtInt, hneg,
    Int.natAbs_ofNat, fmtNat]
  rw [colLoop_lettersValue L hLu _ [] (le_refl _),
    fmtNatAux_digitsValue D hD hDd hz _ [] (by omega)]
  simp

/-! ## Lemmas: the escape codec -/

theorem replaceGo_single (a : Char) (new s : Str) :
    replaceGo [a] new 0 s = s.flatMap (fun c => if c = a then new else [c]) := by
  induction s with
  | nil => rfl
  | cons c cs ih =>
    rw [replaceGo, List.flatMap_cons]
    by_cases h : c = a
    · subst h
      simp [List.isPrefixOf, ih]
    · have h2 : ¬ a = c := fun e => h e.symm
      simp [List.isPrefixOf, ih, h, h2]

theorem ReplaceAll_single (a : Char) (new s : Str) :
    ReplaceAll s [a] new = s.flatMap (fun c => if c = a then new else [c]) := by
  simp [ReplaceAll, replaceGo_single]

/-- The three replacements of `escapeForSocialCalc` amount to one pass over the
characters. -/
theorem escape_eq_flatMap (s : Str) : escapeForSocialCalc s = s.flatMap escapeChar := by
  have e1 : "\\".toList = ['\\'] := rfl
  have e2 : "\n".toList = ['\n'] := rfl
  have e3 : ":".toList = [':'] := rfl
  simp only [escapeForSocialCalc, e1, e2, e3, ReplaceAll_single, List.flatMap_assoc]
  congr 1
  funext c
  by_cases h1 : c = '\\'
  · subst h1; rfl
  · by_cases h2 : c = '\n'
    · subst h2; rfl
    · by_cases h3 : c = ':'
      · subst h3; rfl
      · simp [escapeChar, h1, h2, h3]

/-- A two-character pattern starting with a backslash, replaced in a text made
of tokens that are either a backslash pair or a single character other than the
backslash, is replaced token by token. -/
theorem replaceGo_tokens (x : Char) (new : Str) (f : Char → Str)
    (hf : ∀ c, (∃ y, y ≠ '\\' ∧ f c = ['\\', y]) ∨ (∃ y, y ≠ '\\' ∧ f c = [y])) (s : Str) :
    replaceGo ['\\', x] new 0 (s.flatMap f) =
      s.flatMap (fun c => if f c = ['\\', x] then new else f c) := by
  induction s with
  | nil => rfl
  | cons c cs ih =>
    rw [List.flatMap_cons, List.flatMap_cons]
    rcases hf c with ⟨y, hy, hfc⟩ | ⟨y, hy, hfc⟩
    · rw [hfc]
      by_cases hxy : x = y
      · subst hxy
        simp [replaceGo, List.isPrefixOf, ih]
      · have hyx : ¬ y = x := fun e => hxy e.symm
        have hy2 : ¬ '\\' = y := fun e => hy e.symm
        simp [replaceGo, List.isPrefixOf, ih, hxy, hyx, hy2]
    · rw [hfc]
      have hy2 : ¬ '\\' = y := fun e => hy e.symm
      simp [replaceGo, List.isPrefixOf, ih, hy2]

/-- Tokens after the first replacement of `unescapeFromSocialCalc`. -/
theorem unescape_pass1 (s : Str) :
    replaceGo ['\\', 'c'] [':'] 0 (s.flatMap escapeChar) =
      s.flatMap (fun c => if c = '\\' then ['\\', 'b'] else if c = '\n' then ['\\', 'n']
        else [c]) := by
  rw [replaceGo_tokens]
  · congr 1
    funext c
    by_cases h1 : c = '\\'
    · subst h1; rfl
    · by_cases h2 : c = '\n'
      · subst h2; rfl
      · by_cases h3 : c = ':'
        · subst h3; rfl
        · simp [escapeChar, h1, h2, h3]
  · intro c
    by_cases h1 : c = '\\'
    · subst h1; exact Or.inl ⟨'b', by decide, rfl⟩
    · by_cases h2 : c = '\n'
      · subst h2; exact Or.inl ⟨'n', by decide, rfl⟩
      · by_cases h3 : c = ':'
        · subst h3; exact Or.inl ⟨'c', by decide, rfl⟩
        · exact Or.inr ⟨c, h1, by simp [escapeChar, h1, h2, h3]⟩

theorem unescape_pass2 (s : Str) :
    replaceGo ['\\', 'n'] ['\n'] 0
      (s.flatMap (fun c => if c = '\\' then ['\\', 'b'] else if c = '\n' then ['\\', 'n']
        else [c])) =
      s.flatMap (fun c => if c = '\\' then ['\\', 'b'] else [c]) := by
  rw [replaceGo_tokens]
  · congr 1
    funext c
    by_cases h1 : c = '\\'
    · subst h1; rfl
    · by_cases h2 : c = '\n'
      · subst h2; rfl
      · simp [h1, h2]
  · intro c
    by_cases h1 : c = '\\'
    · subst h1; exact Or.inl ⟨'b', by decide, rfl⟩
    · by_cases h2 : c = '\n'
      · subst h2; exact Or.inl ⟨'n', by decide, rfl⟩
      · exact Or.inr ⟨c, h1, by simp [h1, h2]⟩

theorem unescape_pass3 (s : Str) :
    replaceGo ['\\', 'b'] ['\\'] 0
      (s.flatMap (fun c => if c = '\\' then ['\\', 'b'] else [c])) = s := by
  rw [replaceGo_tokens]
  · have : (fun c : Char => if (if c = '\\' then ['\\', 'b'] else [c]) = ['\\', 'b'] then ['\\']
        else (if c = '\\' then ['\\', 'b'] else [c])) = fun c => [c] := by
      funext c
      by_cases h1 : c = '\\'
      · subst h1; rfl
      · simp [h1]
    rw [this]
    induction s with
    | nil => rfl
    | cons c cs ih => rw [List.flatMap_cons, ih]; rfl
  · intro c
    by_cases h1 : c = '\\'
    · subst h1; exact Or.inl ⟨'b', by decide, rfl⟩
    · exact Or.inr ⟨c, h1, by simp [h1]⟩

/-- Unescaping an escaped text gives the text back. -/
theorem unescape_escape (s : Str) : unescapeFromSocialCalc (escapeForSocialCalc s) = s := by
  have e1 : "\\c".toList = ['\\', 'c'] := rfl
  have e2 : "\\n".toList = ['\\', 'n'] := rfl
  have e3 : "\\b".toList = ['\\', 'b'] := rfl
  have e4 : ":".toList = [':'] := rfl
  have e5 : "\n".toList = ['\n'] := rfl
  have e6 : "\\".toList = ['\\'] := rfl
  rw [escape_eq_flatMap]
  simp only [unescapeFromSocialCalc, ReplaceAll, e1, e2, e3, e4, e5, e6, List.cons_ne_nil,
    if_false, reduceCtorEq]
  rw [unescape_pass1, unescape_pass2, unescape_pass3]

/-! ## Lemmas: the converter to the compact format -/

theorem convertStep_eq (acc : List Str) (line : Str) :
    convertStep acc line = acc ++ (compactLineOf line).toList := by
  unfold convertStep compactLineOf
  simp only []
  generalize Split (TrimSpace line) ":".toList = parts
  generalize HasPrefix (TrimSpace line) "cell:".toList = b
  generalize parts.getD 2 [] = kind
  generalize unescapeFromSocialCalc (parts.getD 3 []) = u
  have et : "t".toList = ['t'] := rfl
  have ev : "v".toList = ['v'] := rfl
  have ef : "vtf".toList = ['v', 't', 'f'] := rfl
  simp only [et, ev, ef]
  cases b
  · simp
  · by_cases h2 : parts.length < 4
    · have h2' : ¬ 4 ≤ parts.length := by omega
      simp [h2, h2']
    · have h2' : 4 ≤ parts.length := by omega
      simp only [h2, h2', Bool.not_true, Bool.false_eq_true, if_false, if_true, and_self,
        true_and]
      by_cases ht : kind = ['t']
      · simp only [ht, if_true]
        split_ifs <;> simp_all
      · by_cases hv : kind = ['v']
        · simp only [ht, hv, if_true, if_false]
          split_ifs <;> simp_all
        · by_cases hf : kind = ['v', 't', 'f']
          · simp only [ht, hv, hf, if_true, if_false, true_and]
            split_ifs <;> simp_all
          · simp [ht, hv, hf]

theorem foldl_convertStep (lines : List Str) (acc : List Str) :
    lines.foldl convertStep acc = acc ++ lines.filterMap compactLineOf := by
  induction lines generalizing acc with
  | nil => simp
  | cons l ls ih =>
    rw [List.foldl_cons, ih, convertStep_eq, List.filterMap_cons]
    cases compactLineOf l <;> simp

/-! ## Lemmas: trimming and splitting -/

theorem trimLeft_cons_space (c : Char) (s : Str) (hc : isSpace c = true) :
    trimLeft (c :: s) = trimLeft s := by
  simp [trimLeft, List.dropWhile_cons, hc]

theorem trimLeft_cons_nonspace (c : Char) (s : Str) (hc : isSpace c = false) :
    trimLeft (c :: s) = c :: s := by
  simp [trimLeft, List.dropWhile_cons, hc]

theorem trimRight_nil : trimRight [] = [] := rfl

theorem trimRight_snoc_space (c : Char) (s : Str) (hc : isSpace c = true) :
    trimRight (s ++ [c]) = trimRight s := by
  simp [trimRight, List.dropWhile_cons, hc]

/-- Trailing white space is removed behind a character that is not white
space, and nothing else. -/
theorem trimRight_append_nonspace (q r : Str) (x : Char) (hx : isSpace x = false) :
    trimRight (q ++ x :: r) = q ++ x :: trimRight r := by
  simp only [trimRight, List.reverse_append, List.reverse_cons, List.append_assoc,
    List.singleton_append]
  rw [List.dropWhile_append]
  split_ifs with h
  · have : List.dropWhile isSpace r.reverse = [] := by simpa using h
    simp [this, List.dropWhile_cons, hx]
  · simp

theorem TrimSpace_cons_space (c : Char) (s : Str) (hc : isSpace c = true) :
    TrimSpace (c :: s) = TrimSpace s := by
  simp [TrimSpace, trimLeft_cons_space c s hc]

theorem TrimSpace_snoc_space (c : Char) (s : Str) (hc : isSpace c = true) :
    TrimSpace (s ++ [c]) = TrimSpace s := by
  unfold TrimSpace trimLeft
  rw [List.dropWhile_append]
  split_ifs with h
  · have : List.dropWhile isSpace s = [] := by simpa using h
    simp [this, List.dropWhile_cons, hc, trimRight_nil]
  · exact trimRight_snoc_space c _ hc

theorem TrimSpace_nil : TrimSpace [] = [] := rfl

theorem mem_of_mem_trimLeft {c : Char} {s : Str} (h : c ∈ trimLeft s) : c ∈ s :=
  (List.dropWhile_sublist isSpace).subset h

theorem mem_of_mem_trimRight {c : Char} {s : Str} (h : c ∈ trimRight s) : c ∈ s := by
  unfold trimRight at h
  rw [List.mem_reverse] at h
  exact List.mem_reverse.mp ((List.dropWhile_sublist isSpace).subset h)

theorem mem_of_mem_TrimSpace {c : Char} {s : Str} (h : c ∈ TrimSpace s) : c ∈ s :=
  mem_of_mem_trimLeft (mem_of_mem_trimRight h)

/-- A text is its right-trimmed part followed by white space only. -/
theorem trimRight_decomp (s : Str) :
    ∃ W : Str, s = trimRight s ++ W ∧ ∀ c ∈ W, isSpace c = true := by
  refine ⟨(s.reverse.takeWhile isSpace).reverse, ?_, ?_⟩
  · have := List.takeWhile_append_dropWhile isSpace s.reverse
    have h2 := congrArg List.reverse this
    rw [List.reverse_append, List.reverse_reverse] at h2
    exact h2.symm
  · intro c hc
    rw [List.mem_reverse] at hc
    exact List.mem_takeWhile_imp hc

/-- A text is white space only followed by its left-trimmed part. -/
theorem trimLeft_decomp (s : Str) :
    ∃ W : Str, s = W ++ trimLeft s ∧ ∀ c ∈ W, isSpace c = true :=
  ⟨s.takeWhile isSpace, (List.takeWhile_append_dropWhile isSpace s).symm,
    fun _ hc => List.mem_takeWhile_imp hc⟩

theorem Split_single (a : Char) (s : Str) : Split s [a] = splitGo [a] 0 s := by
  simp [Split]

theorem splitGo_nil (a : Char) : splitGo [a] 0 [] = [[]] := rfl

theorem splitGo_cons_sep (a : Char) (s : Str) :
    splitGo [a] 0 (a :: s) = [] :: splitGo [a] 0 s := by
  simp [splitGo, List.isPrefixOf]

theorem splitGo_cons_other (a c : Char) (s : Str) (h : c ≠ a) :
    splitGo [a] 0 (c :: s) = consHead c (splitGo [a] 0 s) := by
  have h2 : ¬ a = c := fun e => h e.symm
  simp [splitGo, List.isPrefixOf, h2]

theorem splitGo_ne_nil (a : Char) (s : Str) : splitGo [a] 0 s ≠ [] := by
  induction s with
  | nil => simp [splitGo_nil]
  | cons c cs ih =>
    by_cases h : c = a
    · subst h; simp [splitGo_cons_sep]
    · rw [splitGo_cons_other a c cs h]
      cases hh : splitGo [a] 0 cs with
      | nil => exact absurd hh ih
      | cons x xs => simp [consHead]

/-- Splitting a text whose first separator comes after `p`. -/
theorem splitGo_append_sep (a : Char) (p s : Str) (hp : a ∉ p) :
    splitGo [a] 0 (p ++ a :: s) = p :: splitGo [a] 0 s := by
  induction p with
  | nil => exact splitGo_cons_sep a s
  | cons c cs ih =>
    have hc : c ≠ a := fun e => hp (by simp [e])
    have hcs : a ∉ cs := fun e => hp (by simp [e])
    rw [List.cons_append, splitGo_cons_other a c _ hc, ih hcs]
    rfl

theorem splitGo_no_sep (a : Char) (p : Str) (hp : a ∉ p) : splitGo [a] 0 p = [p] := by
  induction p with
  | nil => rfl
  | cons c cs ih =>
    have hc : c ≠ a := fun e => hp (by simp [e])
    have hcs : a ∉ cs := fun e => hp (by simp [e])
    rw [splitGo_cons_other a c _ hc, ih hcs]
    rfl

/-- The pieces of a split do not contain the separator. -/
theorem not_mem_of_mem_splitGo (a : Char) (s : Str) : ∀ l ∈ splitGo [a] 0 s, a ∉ l := by
  induction s with
  | nil => intro l hl; simp [splitGo_nil] at hl; simp [hl]
  | cons c cs ih =>
    by_cases h : c = a
    · subst h
      rw [splitGo_cons_sep]
      intro l hl
      rcases List.mem_cons.mp hl with rfl | hl
      · simp
      · exact ih l hl
    · rw [splitGo_cons_other a c cs h]
      cases hh : splitGo [a] 0 cs with
      | nil => exact absurd hh (splitGo_ne_nil a cs)
      | cons x xs =>
        rw [hh] at ih
        intro l hl
        simp only [consHead, List.mem_cons] at hl
        rcases hl with rfl | hl
        · intro hm
          rcases List.mem_cons.mp hm with e | hm
          · exact h e.symm
          · exact ih x (by simp) hm
        · exact ih l (by simp [hl])

/-- Splitting a join gives the joined pieces back. -/
theorem splitGo_Join (a : Char) (ls : List Str) (hne : ls ≠ []) (h : ∀ l ∈ ls, a ∉ l) :
    splitGo [a] 0 (Join ls [a]) = ls := by
  induction ls with
  | nil => exact absurd rfl hne
  | cons l rest ih =>
    cases rest with
    | nil => exact splitGo_no_sep a l (h l (by simp))
    | cons l2 rest2 =>
      rw [Join, List.append_assoc, List.singleton_append,
        splitGo_append_sep a l _ (h l (by simp)),
        ih (by simp) (fun x hx => h x (List.mem_cons_of_mem _ hx))]

theorem splitGo_snoc (a c : Char) (s : Str) :
    splitGo [a] 0 (s ++ [c]) =
      if c = a then splitGo [a] 0 s ++ [[]] else snocLast c (splitGo [a] 0 s) := by
  induction s with
  | nil =>
    by_cases h : c = a
    · subst h; simp [splitGo_cons_sep, splitGo_nil]
    · simp [splitGo_cons_other a c [] h, splitGo_nil, h, consHead, snocLast]
  | cons x xs ih =>
    rw [List.cons_append]
    by_cases hx : x = a
    · subst hx
      rw [splitGo_cons_sep, splitGo_cons_sep, ih]
      split_ifs
      · rfl
      · cases hh : splitGo [x] 0 xs with
        | nil => exact absurd hh (splitGo_ne_nil x xs)
        | cons y ys => rfl
    · rw [splitGo_cons_other a x _ hx, splitGo_cons_other a x _ hx, ih]
      cases hh : splitGo [a] 0 xs with
      | nil => exact absurd hh (splitGo_ne_nil a xs)
      | cons y ys =>
        split_ifs
        · rfl
        · cases ys <;> rfl

/-! ## Lemmas: the parser of the compact format -/

theorem splitNGo_zero (sep s : Str) : splitNGo sep 0 0 s = [s] := by
  cases s <;> rfl

/-- `SplitN(line, ":", 2)` cuts the line at its first colon, if it has one. -/
theorem SplitN_colon_two (line : Str) :
    SplitN line ":".toList 2 =
      if ':' ∈ line then
        [line.takeWhile (fun c => c != ':'), (line.dropWhile (fun c => c != ':')).drop 1]
      else [line] := by
  have e : ":".toList = [':'] := rfl
  have h2 : ((2 : Int).toNat - 1) = 1 := rfl
  simp only [SplitN, e, h2, OfNat.ofNat_ne_zero, if_false, List.cons_ne_nil, reduceCtorEq,
    show ¬ ((2 : Int) < 0) by decide]
  induction line with
  | nil => rfl
  | cons c cs ih =>
    by_cases hc : c = ':'
    · subst hc
      simp [splitNGo, List.isPrefixOf, splitNGo_zero]
    · have hc2 : ¬ ':' = c := fun e => hc e.symm
      have hs : splitNGo [':'] 1 0 (c :: cs) = consHead c (splitNGo [':'] 1 0 cs) := by
        simp [splitNGo, List.isPrefixOf, hc2]
      rw [hs, ih]
      by_cases hm : ':' ∈ cs
      · simp [hm, hc, consHead]
      · simp [hm, hc, hc2, consHead]

theorem parseStep_eq (acc : List Str) (line : Str) :
    parseStep acc line = acc ++ (recordOf line).toList := by
  unfold parseStep recordOf
  simp only []
  generalize TrimSpace line = t
  by_cases ht : t = []
  · simp [ht]
  · rw [SplitN_colon_two]
    by_cases hm : ':' ∈ t
    · simp only [ht, hm, if_true, if_false, not_false_eq_true, and_self]
      generalize TrimSpace (List.takeWhile (fun c => c != ':') t) = coord
      generalize TrimSpace (List.drop 1 (List.dropWhile (fun c => c != ':') t)) = value
      cases hv : isValidCoordinate coord
      · simp
      · cases value with
        | nil => simp [HasPrefix, List.isPrefixOf, ht]
        | cons v vs =>
          by_cases he : v = '='
          · subst he
            simp [HasPrefix, TrimPrefix, List.isPrefixOf, ht]
          · have he2 : ¬ '=' = v := fun e => he e.symm
            simp [HasPrefix, List.isPrefixOf, he, he2, ht]
    · simp [ht, hm]

theorem foldl_parseStep (lines : List Str) (acc : List Str) :
    lines.foldl parseStep acc = acc ++ lines.filterMap recordOf := by
  induction lines generalizing acc with
  | nil => simp
  | cons l ls ih =>
    rw [List.foldl_cons, ih, parseStep_eq, List.filterMap_cons]
    cases recordOf l <;> simp

theorem recordOf_congr {l1 l2 : Str} (h : TrimSpace l1 = TrimSpace l2) :
    recordOf l1 = recordOf l2 := by
  unfold recordOf
  rw [h]

theorem recordOf_nil : recordOf [] = none := rfl

theorem filterMap_consHead (g : Str → Option Str) (c : Char) (hg : ∀ l, g (c :: l) = g l)
    (L : List Str) (hL : L ≠ []) : (consHead c L).filterMap g = L.filterMap g := by
  cases L with
  | nil => exact absurd rfl hL
  | cons l rest => simp [consHead, List.filterMap_cons, hg]

theorem filterMap_snocLast (g : Str → Option Str) (c : Char) (hg : ∀ l, g (l ++ [c]) = g l)
    (L : List Str) (hL : L ≠ []) : (snocLast c L).filterMap g = L.filterMap g := by
  induction L with
  | nil => exact absurd rfl hL
  | cons l rest ih =>
    cases rest with
    | nil => simp [snocLast, List.filterMap_cons, hg]
    | cons l2 rest2 =>
      have : snocLast c (l :: l2 :: rest2) = l :: snocLast c (l2 :: rest2) := rfl
      rw [this, List.filterMap_cons, List.filterMap_cons, ih (by simp)]

/-- White space in front of a text does not change the records of its lines. -/
theorem records_append_left (W t : Str) (hW : ∀ c ∈ W, isSpace c = true) :
    (splitGo ['\n'] 0 (W ++ t)).filterMap recordOf =
      (splitGo ['\n'] 0 t).filterMap recordOf := by
  induction W with
  | nil => rfl
  | cons c cs ih =>
    have hcs : ∀ x ∈ cs, isSpace x = true := fun x hx => hW x (List.mem_cons_of_mem _ hx)
    rw [List.cons_append]
    by_cases hc : c = '\n'
    · subst hc
      rw [splitGo_cons_sep, List.filterMap_cons, recordOf_nil]
      exact ih hcs
    · rw [splitGo_cons_other _ c _ hc, filterMap_consHead recordOf c _ _ (splitGo_ne_nil _ _)]
      · exact ih hcs
      · intro l
        exact recordOf_congr (TrimSpace_cons_space c l (hW c (List.mem_cons_self _ _)))

/-- White space behind a text does not change the records of its lines. -/
theorem records_append_right (W : Str) (hW : ∀ c ∈ W, isSpace c = true) :
    ∀ t : Str, (splitGo ['\n'] 0 (t ++ W)).filterMap recordOf =
      (splitGo ['\n'] 0 t).filterMap recordOf := by
  induction W with
  | nil => intro t; rw [List.append_nil]
  | cons c cs ih =>
    intro t
    have hcs : ∀ x ∈ cs, isSpace x = true := fun x hx => hW x (List.mem_cons_of_mem _ hx)
    have e : t ++ c :: cs = (t ++ [c]) ++ cs := by simp
    rw [e, ih hcs (t ++ [c]), splitGo_snoc]
    split_ifs with hc
    · rw [List.filterMap_append]
      simp [recordOf_nil]
    · apply filterMap_snocLast recordOf c _ _ (splitGo_ne_nil _ _)
      intro l
      exact recordOf_congr (TrimSpace_snoc_space c l (hW c (List.mem_cons_self _ _)))

/-- Trimming the whole text first does not change the records of its lines. -/
theorem records_TrimSpace (x : Str) :
    (Split (TrimSpace x) "\n".toList).filterMap recordOf =
      (Split x "\n".toList).filterMap recordOf := by
  have e : "\n".toList = ['\n'] := rfl
  rw [e, Split_single, Split_single]
  obtain ⟨W1, h1, hW1⟩ := trimLeft_decomp x
  obtain ⟨W2, h2, hW2⟩ := trimRight_decomp (trimLeft x)
  have hx : (splitGo ['\n'] 0 x).filterMap recordOf =
      (splitGo ['\n'] 0 (trimLeft x)).filterMap recordOf := by
    conv_lhs => rw [h1]
    exact records_append_left W1 _ hW1
  have hy : (splitGo ['\n'] 0 (trimLeft x)).filterMap recordOf =
      (splitGo ['\n'] 0 (trimRight (trimLeft x))).filterMap recordOf := by
    conv_lhs => rw [h2]
    exact records_append_right W2 hW2 _
  rw [hx, hy]
  rfl

/-- The output of the parser: the version line, the records of the input lines
in order, and the sheet line. -/
theorem ParseTouchCalcMSC_eq (x : Str) :
    ParseTouchCalcMSC x =
      .ok (Join ("version:1.4".toList :: ((Split x "\n".toList).filterMap recordOf ++
        ["sheet:c:10:r:20".toList])) "\n".toList) := by
  unfold ParseTouchCalcMSC
  simp only []
  rw [foldl_parseStep, records_TrimSpace]
  rfl

/-! ## Lemmas: the validator -/

theorem not_version_of_cell (t : Str) (h : HasPrefix t "cell:".toList = true) :
    t ≠ [] ∧ HasPrefix t "version:".toList = false := by
  cases t with
  | nil => exact absurd h (by decide)
  | cons c cs =>
    refine ⟨by simp, ?_⟩
    have e1 : "cell:".toList = 'c' :: "ell:".toList := rfl
    have e2 : "version:".toList = 'v' :: "ersion:".toList := rfl
    rw [HasPrefix, e1, List.isPrefixOf] at h
    rw [HasPrefix, e2, List.isPrefixOf]
    simp only [Bool.and_eq_true, beq_iff_eq] at h
    obtain ⟨rfl, _⟩ := h
    rfl

/-- One iteration of the validator's loop. -/
theorem validateLoop_cons (l : Str) (rest : List Str) (i : Nat) (hv : Bool) :
    validateLoop (l :: rest) i hv =
      if HasPrefix (TrimSpace l) "cell:".toList = true then
        (if (Split (TrimSpace l) ":".toList).length < 4 then
          .error (malformedCellError (i + 1) (TrimSpace l))
        else if isValidCoordinate ((Split (TrimSpace l) ":".toList).getD 1 []) = false then
          .error (invalidCoordinateError (i + 1) ((Split (TrimSpace l) ":".toList).getD 1 []))
        else validateLoop rest (i + 1) hv)
      else validateLoop rest (i + 1) (hv || HasPrefix (TrimSpace l) "version:".toList) := by
  rw [validateLoop]
  simp only []
  by_cases hc : HasPrefix (TrimSpace l) "cell:".toList = true
  · obtain ⟨h1, h2⟩ := not_version_of_cell _ hc
    simp only [h1, h2, hc, if_true, if_false, Bool.false_eq_true, malformedCellError,
      invalidCoordinateError, Bool.not_eq_true']
  · by_cases ht : TrimSpace l = []
    · have hf : HasPrefix [] "version:".toList = false := by decide
      rw [if_pos ht, if_neg hc, ht, hf, Bool.or_false]
    · by_cases hver : HasPrefix (TrimSpace l) "version:".toList = true
      · rw [if_neg ht, if_pos hver, if_neg hc, hver, Bool.or_true]
      · have hf : HasPrefix (TrimSpace l) "version:".toList = false := by simpa using hver
        rw [if_neg ht, if_neg hver, if_neg hc, if_neg hc, hf, Bool.or_false]

/-- The loop ends without error exactly when every line passes the cell check;
the flag it returns records whether a version line was seen. -/
theorem validateLoop_ok_iff (lines : List Str) : ∀ (i : Nat) (hv b : Bool),
    validateLoop lines i hv = .ok b ↔
      (∀ l ∈ lines, WellFormedCell l) ∧
        b = (hv || lines.any (fun l => HasPrefix (TrimSpace l) "version:".toList)) := by
  induction lines with
  | nil =>
    intro i hv b
    simp only [validateLoop, Except.ok.injEq, List.not_mem_nil, false_implies, implies_true,
      List.any_nil, Bool.or_false, true_and]
    exact eq_comm
  | cons l rest ih =>
    intro i hv b
    rw [validateLoop_cons]
    by_cases hc : HasPrefix (TrimSpace l) "cell:".toList = true
    · obtain ⟨_, h2⟩ := not_version_of_cell _ hc
      rw [if_pos hc]
      by_cases h4 : (Split (TrimSpace l) ":".toList).length < 4
      · rw [if_pos h4]
        constructor
        · intro h; exact absurd h (by simp)
        · rintro ⟨h, _⟩
          have := (h l (List.mem_cons_self _ _) hc).1
          omega
      · rw [if_neg h4]
        by_cases hco : isValidCoordinate ((Split (TrimSpace l) ":".toList).getD 1 []) = false
        · rw [if_pos hco]
          constructor
          · intro h; exact absurd h (by simp)
          · rintro ⟨h, _⟩
            have := (h l (List.mem_cons_self _ _) hc).2
            rw [hco] at this
            exact absurd this (by decide)
        · rw [if_neg hco, ih]
          simp only [List.mem_cons, forall_eq_or_imp, List.any_cons, h2, Bool.false_or]
          constructor
          · rintro ⟨h, hb⟩
            exact ⟨⟨fun _ => ⟨by omega, by simpa using hco⟩, h⟩, hb⟩
          · rintro ⟨⟨_, h⟩, hb⟩
            exact ⟨h, hb⟩
    · rw [if_neg hc, ih]
      simp only [List.mem_cons, forall_eq_or_imp, List.any_cons, Bool.or_assoc]
      constructor
      · rintro ⟨h, hb⟩
        exact ⟨⟨fun h' => absurd h' hc, h⟩, hb⟩
      · rintro ⟨⟨_, h⟩, hb⟩
        exact ⟨h, hb⟩

/-- The validator accepts a text exactly when every line passes the cell check
and some line is a version record. -/
theorem Validate_ok_iff (data : Str) :
    ValidateSocialCalcData data = .ok () ↔
      (∀ l ∈ Split data "\n".toList, WellFormedCell l) ∧
        (∃ l ∈ Split data "\n".toList, IsVersionLine l) := by
  unfold ValidateSocialCalcData
  simp only []
  cases h : validateLoop (Split data "\n".toList) 0 false with
  | error e =>
    simp only [reduceCtorEq, false_iff]
    rintro ⟨h1, h2⟩
    have := (validateLoop_ok_iff _ 0 false _).mpr ⟨h1, rfl⟩
    rw [h] at this
    exact absurd this (by simp)
  | ok b =>
    obtain ⟨h1, h2⟩ := (validateLoop_ok_iff _ 0 false b).mp h
    simp only [Bool.false_or] at h2
    cases b with
    | false =>
      simp only [Bool.not_false, if_true, reduceCtorEq, false_iff]
      rintro ⟨_, l, hl, hver⟩
      have : (Split data "\n".toList).any (fun l => HasPrefix (TrimSpace l) "version:".toList)
          = true := List.any_eq_true.mpr ⟨l, hl, hver⟩
      rw [← h2] at this
      exact absurd this (by decide)
    | true =>
      simp only [Bool.not_true, Bool.false_eq_true, if_false, true_iff]
      obtain ⟨l, hl, hver⟩ := List.any_eq_true.mp h2.symm
      exact ⟨h1, l, hl, hver⟩

/-- An error of the loop comes from the first line that fails the cell check,
and its message is built from the number of that line. -/
theorem validateLoop_error (lines : List Str) : ∀ (i : Nat) (hv : Bool) (e : Str),
    validateLoop lines i hv = .error e →
      ∃ (j : Nat) (l : Str), lines[j]? = some l ∧
        (∀ (k : Nat) (l2 : Str), k < j → lines[k]? = some l2 → WellFormedCell l2) ∧
        HasPrefix (TrimSpace l) "cell:".toList = true ∧
        (((Split (TrimSpace l) ":".toList).length < 4 ∧
            e = malformedCellError (i + j + 1) (TrimSpace l)) ∨
         (4 ≤ (Split (TrimSpace l) ":".toList).length ∧
            isValidCoordinate ((Split (TrimSpace l) ":".toList).getD 1 []) = false ∧
            e = invalidCoordinateError (i + j + 1)
              ((Split (TrimSpace l) ":".toList).getD 1 []))) := by
  induction lines with
  | nil => intro i hv e h; simp [validateLoop] at h
  | cons l rest ih =>
    intro i hv e h
    rw [validateLoop_cons] at h
    have shift : ∀ (hv2 : Bool), validateLoop rest (i + 1) hv2 = .error e → WellFormedCell l →
        ∃ (j : Nat) (l1 : Str), (l :: rest)[j]? = some l1 ∧
        (∀ (k : Nat) (l2 : Str), k < j → (l :: rest)[k]? = some l2 → WellFormedCell l2) ∧
        HasPrefix (TrimSpace l1) "cell:".toList = true ∧
        (((Split (TrimSpace l1) ":".toList).length < 4 ∧
            e = malformedCellError (i + j + 1) (TrimSpace l1)) ∨
         (4 ≤ (Split (TrimSpace l1) ":".toList).length ∧
            isValidCoordinate ((Split (TrimSpace l1) ":".toList).getD 1 []) = false ∧
            e = invalidCoordinateError (i + j + 1)
              ((Split (TrimSpace l1) ":".toList).getD 1 []))) := by
      intro hv2 h2 hwf
      obtain ⟨j, l1, hj, hbefore, hpre, hcase⟩ := ih (i + 1) hv2 e h2
      refine ⟨j + 1, l1, by simpa using hj, ?_, hpre, ?_⟩
      · intro k l2 hk hl2
        cases k with
        | zero =>
          simp only [List.getElem?_cons_zero, Option.some.injEq] at hl2
          subst hl2
          exact hwf
        | succ k =>
          exact hbefore k l2 (by omega) (by simpa using hl2)
      · have e1 : i + 1 + j + 1 = i + (j + 1) + 1 := by omega
        rw [e1] at hcase
        exact hcase
    by_cases hc : HasPrefix (TrimSpace l) "cell:".toList = true
    · rw [if_pos hc] at h
      by_cases h4 : (Split (TrimSpace l) ":".toList).length < 4
      · rw [if_pos h4] at h
        refine ⟨0, l, by simp, ?_, hc, Or.inl ⟨h4, ?_⟩⟩
        · intro k l2 hk; omega
        · simpa using h.symm
      · rw [if_neg h4] at h
        by_cases hco : isValidCoordinate ((Split (TrimSpace l) ":".toList).getD 1 []) = false
        · rw [if_pos hco] at h
          refine ⟨0, l, by simp, ?_, hc, Or.inr ⟨by omega, hco, ?_⟩⟩
          · intro k l2 hk; omega
          · simpa using h.symm
        · rw [if_neg hco] at h
          exact shift hv h (fun _ => ⟨by omega, by simpa using hco⟩)
    · rw [if_neg hc] at h
      exact shift _ h (fun h' => absurd h' hc)

/-! ## Lemmas: the parser's output passes the validator -/

theorem mem_coordinate {coord : Str} (h : isValidCoordinate coord = true) :
    ∀ c ∈ coord, isUpper c = true ∨ isDigit c = true := by
  obtain ⟨L, D, rfl, _, _, hL, hD⟩ := (isValidCoordinate_iff coord).mp h
  intro c hc
  rcases List.mem_append.mp hc with h1 | h1
  · exact Or.inl (hL c h1)
  · exact Or.inr (hD c h1)

theorem colon_not_mem_coordinate {coord : Str} (h : isValidCoordinate coord = true) :
    ':' ∉ coord := by
  intro hm
  rcases mem_coordinate h ':' hm with h1 | h1 <;> exact absurd h1 (by decide)

theorem newline_not_mem_coordinate {coord : Str} (h : isValidCoordinate coord = true) :
    '\n' ∉ coord := by
  intro hm
  rcases mem_coordinate h '\n' hm with h1 | h1 <;> exact absurd h1 (by decide)

/-- An escaped text contains neither a newline nor a colon. -/
theorem not_mem_escape (s : Str) :
    '\n' ∉ escapeForSocialCalc s ∧ ':' ∉ escapeForSocialCalc s := by
  rw [escape_eq_flatMap]
  have key : ∀ d c, c ∈ escapeChar d → c ≠ '\n' ∧ c ≠ ':' := by
    intro d c hc
    unfold escapeChar at hc
    split_ifs at hc with h1 h2 h3
    · simp only [List.mem_cons, List.mem_singleton, List.not_mem_nil, or_false] at hc
      rcases hc with rfl | rfl <;> exact ⟨by decide, by decide⟩
    · simp only [List.mem_cons, List.mem_singleton, List.not_mem_nil, or_false] at hc
      rcases hc with rfl | rfl <;> exact ⟨by decide, by decide⟩
    · simp only [List.mem_cons, List.mem_singleton, List.not_mem_nil, or_false] at hc
      rcases hc with rfl | rfl <;> exact ⟨by decide, by decide⟩
    · simp only [List.mem_singleton] at hc
      subst hc
      exact ⟨h2, h3⟩
  constructor
  · intro hm
    obtain ⟨d, _, hd⟩ := List.mem_flatMap.mp hm
    exact (key d _ hd).1 rfl
  · intro hm
    obtain ⟨d, _, hd⟩ := List.mem_flatMap.mp hm
    exact (key d _ hd).2 rfl

/-- The shape of a record emitted for a line: `cell:<coord>:<kind>:<rest>` with
a valid coordinate and a kind without colon; a newline in it would come from
the line. -/
theorem recordOf_some {line rec : Str} (h : recordOf line = some rec) :
    ∃ coord kind r : Str, isValidCoordinate coord = true ∧ ':' ∉ kind ∧
      rec = "cell".toList ++ ':' :: (coord ++ ':' :: (kind ++ ':' :: r)) ∧
      ('\n' ∈ rec → '\n' ∈ line) := by
  unfold recordOf at h
  simp only [] at h
  split_ifs at h with h1 h2 h3
  · simp only [Option.some.injEq] at h
    refine ⟨_, "vtf".toList, "n:0:".toList ++ List.drop 1 (TrimSpace (List.drop 1
      (List.dropWhile (fun c => c != ':') (TrimSpace line)))), h2, by decide, ?_, ?_⟩
    · rw [← h]
      simp
    · rw [← h]
      intro hm
      simp only [List.mem_append] at hm
      rcases hm with ((hm | hm) | hm) | hm
      · exact absurd hm (by decide)
      · exact absurd hm (newline_not_mem_coordinate h2)
      · exact absurd hm (by decide)
      · exact mem_of_mem_TrimSpace ((List.dropWhile_sublist _).subset
          (List.mem_of_mem_drop (mem_of_mem_TrimSpace (List.mem_of_mem_drop hm))))
  · simp only [Option.some.injEq] at h
    refine ⟨_, "t".toList, escapeForSocialCalc (TrimSpace (List.drop 1
      (List.dropWhile (fun c => c != ':') (TrimSpace line)))), h2, by decide, ?_, ?_⟩
    · rw [← h]
      simp
    · rw [← h]
      intro hm
      simp only [List.mem_append] at hm
      rcases hm with ((hm | hm) | hm) | hm
      · exact absurd hm (by decide)
      · exact absurd hm (newline_not_mem_coordinate h2)
      · exact absurd hm (by decide)
      · exact absurd hm (not_mem_escape _).1

/-- A record `cell:<coord>:<kind>:<rest>` with a valid coordinate passes the
validator's cell check, whatever its rest. -/
theorem wellFormed_record (coord kind r : Str) (hc : isValidCoordinate coord = true)
    (hk : ':' ∉ kind) :
    WellFormedCell ("cell".toList ++ ':' :: (coord ++ ':' :: (kind ++ ':' :: r))) := by
  intro _
  have e : "cell".toList = ['c', 'e', 'l', 'l'] := rfl
  have e2 : ":".toList = [':'] := rfl
  have ht : TrimSpace ("cell".toList ++ ':' :: (coord ++ ':' :: (kind ++ ':' :: r))) =
      "cell".toList ++ ':' :: (coord ++ ':' :: (kind ++ ':' :: trimRight r)) := by
    unfold TrimSpace
    rw [e]
    simp only [List.cons_append, List.nil_append]
    rw [trimLeft_cons_nonspace _ _ (by decide)]
    have := trimRight_append_nonspace ("cell:".toList ++ coord ++ ':' :: kind) r ':' (by decide)
    simpa using this
  rw [ht, e2, Split_single, splitGo_append_sep _ _ _ (by decide),
    splitGo_append_sep _ _ _ (colon_not_mem_coordinate hc), splitGo_append_sep _ _ _ hk]
  refine ⟨?_, by simpa using hc⟩
  have := splitGo_ne_nil ':' (trimRight r)
  cases hs : splitGo [':'] 0 (trimRight r) with
  | nil => exact absurd hs this
  | cons a b => simp

/-- Every output of the parser passes the validator. -/
theorem Validate_Parse (x : Str) :
    ∃ out : Str, ParseTouchCalcMSC x = .ok out ∧ ValidateSocialCalcData out = .ok () := by
  refine ⟨_, ParseTouchCalcMSC_eq x, ?_⟩
  have e : "\n".toList = ['\n'] := rfl
  have hrec : ∀ rec ∈ (Split x "\n".toList).filterMap recordOf,
      '\n' ∉ rec ∧ WellFormedCell rec := by
    intro rec hrec
    obtain ⟨line, hline, hsome⟩ := List.mem_filterMap.mp hrec
    obtain ⟨coord, kind, r, hc, hk, hshape, hnl⟩ := recordOf_some hsome
    refine ⟨fun hm => ?_, ?_⟩
    · rw [e, Split_single] at hline
      exact not_mem_of_mem_splitGo '\n' x line hline (hnl hm)
    · rw [hshape]
      exact wellFormed_record coord kind r hc hk
  have hsplit : Split (Join ("version:1.4".toList :: ((Split x "\n".toList).filterMap recordOf ++
      ["sheet:c:10:r:20".toList])) "\n".toList) "\n".toList =
      "version:1.4".toList :: ((Split x "\n".toList).filterMap recordOf ++
        ["sheet:c:10:r:20".toList]) := by
    rw [e, Split_single]
    apply splitGo_Join _ _ (by simp)
    intro l hl
    rcases List.mem_cons.mp hl with rfl | hl
    · decide
    · rcases List.mem_append.mp hl with hl | hl
      · exact (hrec l (by rw [e]; exact hl)).1
      · rw [List.mem_singleton] at hl
        subst hl
        decide
  rw [Validate_ok_iff, hsplit]
  constructor
  · intro l hl
    rcases List.mem_cons.mp hl with rfl | hl
    · intro h; exact absurd h (by decide)
    · rcases List.mem_append.mp hl with hl | hl
      · exact (hrec l hl).2
      · rw [List.mem_singleton] at hl
        subst hl
        intro h; exact absurd h (by decide)
  · exact ⟨"version:1.4".toList, List.mem_cons_self _ _, by unfold IsVersionLine; decide⟩

/-! ## The claims -/

/-- C1: for every input text `x` (empty, malformed, with colons, backslashes or
carriage returns), `ValidateSocialCalcData` applied to the text returned by
`ParseTouchCalcMSC x` returns no error. -/
theorem validate_parse_ok (x : Str) :
    ∃ out : Str, ParseTouchCalcMSC x = .ok out ∧ ValidateSocialCalcData out = .ok () :=
  Validate_Parse x

/-- C2: for all integers `row` and `col` in `[1, 1000]`,
`CoordinateToRowCol (RowColToCoordinate row col)` returns `(row, col)` with no
error. -/
theorem decode_encode_upto_1000 (row col : Int) (hr : 1 ≤ row ∧ row ≤ 1000)
    (hc : 1 ≤ col ∧ col ≤ 1000) :
    CoordinateToRowCol (RowColToCoordinate row col) = .ok (row, col) :=
  decode_encode row col hr.1 (by omega) hc.1 (by omega)

/-- C2, at row 12 and column 27 (the coordinate `AA12`). -/
theorem decode_encode_upto_1000_witness :
    ((1 : Int) ≤ 12 ∧ (12 : Int) ≤ 1000) ∧ ((1 : Int) ≤ 27 ∧ (27 : Int) ≤ 1000) ∧
      CoordinateToRowCol (RowColToCoordinate 12 27) = .ok (12, 27) :=
  ⟨by decide, by decide, decode_encode_upto_1000 12 27 (by decide) (by decide)⟩

/-- C3: for every string `s`, also one that contains backslashes, newlines,
colons or texts that look like escape sequences,
`unescapeFromSocialCalc (escapeForSocialCalc s) = s`. -/
theorem unescape_escape_id (s : Str) :
    unescapeFromSocialCalc (escapeForSocialCalc s) = s :=
  unescape_escape s

/-- C4, as stated, fails: `A9223372036854775808` matches the Coordinate grammar,
and `CoordinateToRowCol` returns the invalid-row-number error, because the digit
run does not fit the 64-bit `int`. -/
theorem decode_fails_on_long_digit_run :
    IsCoordinate "A9223372036854775808".toList ∧
      CoordinateToRowCol "A9223372036854775808".toList =
        .error "invalid row number in coordinate: A9223372036854775808".toList :=
  ⟨(isValidCoordinate_iff _).mp (by decide), by decide⟩

/-- C4, amended: `CoordinateToRowCol s` returns no error if and only if `s`
matches the Coordinate grammar (one or more upper-case letters followed by one
or more digits, nothing else) and the value of its digit run is at most
`2^63 - 1`. -/
theorem decode_ok_iff (s : Str) :
    (∃ r : Int × Int, CoordinateToRowCol s = .ok r) ↔
      ∃ L D : Str, s = L ++ D ∧ L ≠ [] ∧ D ≠ [] ∧ (∀ c ∈ L, isUpper c = true) ∧
        (∀ c ∈ D, isDigit c = true) ∧ digitsValue D < 2 ^ 63 := by
  constructor
  · rintro ⟨r, hr⟩
    by_cases hv : isValidCoordinate s = true
    · obtain ⟨L, D, rfl, hL, hD, hLu, hDd⟩ := (isValidCoordinate_iff s).mp hv
      refine ⟨L, D, rfl, hL, hD, hLu, hDd, ?_⟩
      rw [CoordinateToRowCol_append L D hL hD hLu hDd] at hr
      by_contra hlt
      rw [if_neg hlt] at hr
      exact absurd hr (by simp)
    · simp [CoordinateToRowCol, hv] at hr
  · rintro ⟨L, D, rfl, hL, hD, hLu, hDd, hlt⟩
    rw [CoordinateToRowCol_append L D hL hD hLu hDd, if_pos hlt]
    exact ⟨_, rfl⟩

/-- C5: for every input text, `ParseTouchCalcMSC` returns no error and its
output is the newline-join of the line `version:1.4`, then, in input order, the
record of each input line that has one (`recordOf`), then the line
`sheet:c:10:r:20`; and the parse of `A1:hello`, `B2:=A1+A2` is
`version:1.4`, `cell:A1:t:hello`, `cell:B2:vtf:n:0:A1+A2`, `sheet:c:10:r:20`. -/
theorem parse_output :
    (∀ x : Str, ParseTouchCalcMSC x =
      .ok (Join ("version:1.4".toList :: ((Split x "\n".toList).filterMap recordOf ++
        ["sheet:c:10:r:20".toList])) "\n".toList)) ∧
    ParseTouchCalcMSC "A1:hello\nB2:=A1+A2".toList =
      .ok "version:1.4\ncell:A1:t:hello\ncell:B2:vtf:n:0:A1+A2\nsheet:c:10:r:20".toList :=
  ⟨ParseTouchCalcMSC_eq, by decide⟩

/-- C6: for every expanded text, `ConvertSocialCalcToMSC` returns the
newline-join, in input line order, of the compact line of each input line that
has one (`compactLineOf`), every other line contributing nothing; and the
conversion of `version:1.4`, `cell:A1:t:hi`, `cell:C3:v:42`,
`cell:B2:vtf:n:0:A1+A2` is `A1:hi`, `C3:42`, `B2:=A1+A2`. -/
theorem convert_output :
    (∀ x : Str, ConvertSocialCalcToMSC x =
      Join ((Split x "\n".toList).filterMap compactLineOf) "\n".toList) ∧
    ConvertSocialCalcToMSC
        "version:1.4\ncell:A1:t:hi\ncell:C3:v:42\ncell:B2:vtf:n:0:A1+A2".toList =
      "A1:hi\nC3:42\nB2:=A1+A2".toList := by
  refine ⟨fun x => ?_, by decide⟩
  unfold ConvertSocialCalcToMSC
  simp only []
  rw [foldl_convertStep, List.nil_append]

/-- C7: `ValidateSocialCalcData data` returns no error if and only if at least
one trimmed line of `data` starts with `version:` and every trimmed line that
starts with `cell:` splits on colon into at least 4 fields with a second field
matching the Coordinate grammar; `cell:A1` fails with the malformed-cell error
for line 1 and `cell:A1:t:x` fails with the missing-version error. -/
theorem validate_accepts_iff :
    (∀ data : Str, ValidateSocialCalcData data = .ok () ↔
      (∃ l ∈ Split data "\n".toList, HasPrefix (TrimSpace l) "version:".toList = true) ∧
      (∀ l ∈ Split data "\n".toList, HasPrefix (TrimSpace l) "cell:".toList = true →
        4 ≤ (Split (TrimSpace l) ":".toList).length ∧
          IsCoordinate ((Split (TrimSpace l) ":".toList).getD 1 []))) ∧
    ValidateSocialCalcData "cell:A1".toList =
      .error "invalid cell definition at line 1: cell:A1".toList ∧
    ValidateSocialCalcData "cell:A1:t:x".toList = .error "missing version header".toList := by
  refine ⟨fun data => ?_, by decide, by decide⟩
  rw [Validate_ok_iff]
  constructor
  · rintro ⟨h1, h2⟩
    exact ⟨h2, fun l hl hp => ⟨(h1 l hl hp).1, (isValidCoordinate_iff _).mp (h1 l hl hp).2⟩⟩
  · rintro ⟨h1, h2⟩
    exact ⟨fun l hl hp => ⟨(h2 l hl hp).1, (isValidCoordinate_iff _).mpr (h2 l hl hp).2⟩, h1⟩

/-- C8, as stated, fails: the error for `cell:A1:t:x` is `missing version header`,
which cites no line of the input, and the error for `version:1`, `cell:a1:t:x`
is `invalid coordinate at line 2: a1`, which does not carry the text of
line 2. -/
theorem validate_error_not_citing_line :
    (ValidateSocialCalcData "cell:A1:t:x".toList = .error "missing version header".toList ∧
      ¬ CitesLine "cell:A1:t:x".toList "missing version header".toList) ∧
    (ValidateSocialCalcData "version:1\ncell:a1:t:x".toList =
        .error "invalid coordinate at line 2: a1".toList ∧
      ¬ "cell:a1:t:x".toList <:+: "invalid coordinate at line 2: a1".toList) := by
  refine ⟨⟨by decide, ?_⟩, by decide, ?_⟩
  · rintro ⟨j, l, hj, _, h2⟩
    have hs : Split "cell:A1:t:x".toList "\n".toList = ["cell:A1:t:x".toList] := by decide
    rw [hs] at hj
    cases j with
    | zero =>
      simp only [List.getElem?_cons_zero, Option.some.injEq] at hj
      subst hj
      have hm : '1' ∈ "missing version header".toList :=
        h2.subset (show '1' ∈ "cell:A1:t:x".toList by decide)
      exact absurd hm (by decide)
    | succ j => simp at hj
  · intro h
    have hm : 'x' ∈ "invalid coordinate at line 2: a1".toList :=
      h.subset (show 'x' ∈ "cell:a1:t:x".toList by decide)
    exact absurd hm (by decide)

/-- C8, amended: an error returned by `ValidateSocialCalcData` is either
`missing version header`, which carries no line number and no text and is
returned only when no line of the input is a version record (and every line
passes the cell check), or comes from a line `l`, the `j+1`-th of the
newline-separated lines of the input, that starts, trimmed, with `cell:`: with
fewer than 4 fields the message is
`invalid cell definition at line <j+1>: <trimmed l>`, otherwise the second
field is not a coordinate and the message is
`invalid coordinate at line <j+1>: <second field>`. -/
theorem validate_error_forms (data e : Str) (h : ValidateSocialCalcData data = .error e) :
    (e = "missing version header".toList ∧
      (¬ ∃ l ∈ Split data "\n".toList, HasPrefix (TrimSpace l) "version:".toList = true) ∧
      (∀ l ∈ Split data "\n".toList, WellFormedCell l)) ∨
    ∃ (j : Nat) (l : Str), (Split data "\n".toList)[j]? = some l ∧
      HasPrefix (TrimSpace l) "cell:".toList = true ∧
      (((Split (TrimSpace l) ":".toList).length < 4 ∧
          e = "invalid cell definition at line ".toList ++ fmtNat (j + 1) ++ ": ".toList ++
            TrimSpace l) ∨
       (4 ≤ (Split (TrimSpace l) ":".toList).length ∧
          isValidCoordinate ((Split (TrimSpace l) ":".toList).getD 1 []) = false ∧
          e = "invalid coordinate at line ".toList ++ fmtNat (j + 1) ++ ": ".toList ++
            (Split (TrimSpace l) ":".toList).getD 1 [])) := by
  unfold ValidateSocialCalcData at h
  simp only [] at h
  cases hl : validateLoop (Split data "\n".toList) 0 false with
  | error e2 =>
    rw [hl] at h
    simp only [Except.error.injEq] at h
    subst h
    obtain ⟨j, l, hj, _, hp, hcase⟩ := validateLoop_error _ 0 false e2 hl
    rw [Nat.zero_add] at hcase
    exact Or.inr ⟨j, l, hj, hp, hcase⟩
  | ok b =>
    rw [hl] at h
    cases b with
    | false =>
      simp only [Bool.not_false, if_true, Except.error.injEq] at h
      obtain ⟨hwf, hany⟩ := (validateLoop_ok_iff _ 0 false false).mp hl
      refine Or.inl ⟨h.symm, ?_, hwf⟩
      rintro ⟨l, hl2, hver⟩
      have : (Split data "\n".toList).any
          (fun l => HasPrefix (TrimSpace l) "version:".toList) = true :=
        List.any_eq_true.mpr ⟨l, hl2, hver⟩
      rw [Bool.false_or] at hany
      rw [← hany] at this
      exact absurd this (by decide)
    | true => simp at h

/-- C8, amended, at the input `cell:A1:t:x`, which has no version record. -/
theorem validate_error_forms_witness :
    ValidateSocialCalcData "cell:A1:t:x".toList = .error "missing version header".toList ∧
    (("missing version header".toList = "missing version header".toList ∧
      (¬ ∃ l ∈ Split "cell:A1:t:x".toList "\n".toList,
        HasPrefix (TrimSpace l) "version:".toList = true) ∧
      (∀ l ∈ Split "cell:A1:t:x".toList "\n".toList, WellFormedCell l)) ∨
    ∃ (j : Nat) (l : Str), (Split "cell:A1:t:x".toList "\n".toList)[j]? = some l ∧
      HasPrefix (TrimSpace l) "cell:".toList = true ∧
      (((Split (TrimSpace l) ":".toList).length < 4 ∧
          "missing version header".toList =
            "invalid cell definition at line ".toList ++ fmtNat (j + 1) ++ ": ".toList ++
              TrimSpace l) ∨
       (4 ≤ (Split (TrimSpace l) ":".toList).length ∧
          isValidCoordinate ((Split (TrimSpace l) ":".toList).getD 1 []) = false ∧
          "missing version header".toList =
            "invalid coordinate at line ".toList ++ fmtNat (j + 1) ++ ": ".toList ++
              (Split (TrimSpace l) ":".toList).getD 1 []))) :=
  ⟨by decide,
    validate_error_forms "cell:A1:t:x".toList "missing version header".toList (by decide)⟩

/-- C9, at the label made of a newline followed by `cell:`: the default
document gets the extra line `cell:` as its line 10 and the validator rejects
it. -/
theorem default_document_rejected :
    ValidateSocialCalcData (CreateDefaultTouchCalcData "\ncell:".toList) =
      .error "invalid cell definition at line 10: cell:".toList := by
  decide

/-- C10, as stated, fails: `CoordinateToRowCol` succeeds on `A01` with
`(1, 1)`, and `RowColToCoordinate 1 1` is `A1`, not `A01`. -/
theorem encode_decode_leading_zero :
    CoordinateToRowCol "A01".toList = .ok (1, 1) ∧
      RowColToCoordinate 1 1 = "A1".toList ∧ RowColToCoordinate 1 1 ≠ "A01".toList := by
  decide

/-- C10, amended: for letters `L` and digits `D` (both non-empty) such that `D`
has no leading zero and the base-26 value of `L` is at most `2^63 - 1`, if
`CoordinateToRowCol (L ++ D)` succeeds with `(row, col)` then
`RowColToCoordinate row col = L ++ D`. -/
theorem encode_decode_canonical (L D : Str) (hL : L ≠ []) (hD : D ≠ [])
    (hLu : ∀ c ∈ L, isUpper c = true) (hDd : ∀ c ∈ D, isDigit c = true)
    (hz : D.head? ≠ some '0') (hv : lettersValue L < 2 ^ 63) (row col : Int)
    (h : CoordinateToRowCol (L ++ D) = .ok (row, col)) :
    RowColToCoordinate row col = L ++ D :=
  encode_decode L D hL hD hLu hDd hz hv row col h

/-- C10, amended, at the coordinate `AA12`. -/
theorem encode_decode_canonical_witness :
    CoordinateToRowCol ("AA".toList ++ "12".toList) = .ok (12, 27) ∧
      RowColToCoordinate 12 27 = "AA".toList ++ "12".toList :=
  ⟨by decide, encode_decode_canonical "AA".toList "12".toList (by decide) (by decide)
    (by decide) (by decide) (by decide) (by decide) 12 27 (by decide)⟩

/-! ## Lemmas: values of letter and digit runs, shape of encoded coordinates -/

theorem foldl_base26 (L : Str) : ∀ v : Nat,
    L.foldl (fun v c => v * 26 + (c.toNat - 64)) v = v * 26 ^ L.length + base26Sum L := by
  induction L with
  | nil => intro v; simp [base26Sum]
  | cons c cs ih =>
    intro v
    rw [List.foldl_cons, ih, base26Sum, List.length_cons]
    ring

/-- The column loop's value, without overflow, is the positional base-26 sum. -/
theorem lettersValue_eq_base26Sum (L : Str) : lettersValue L = base26Sum L := by
  rw [lettersValue, foldl_base26]
  simp

theorem foldl_decimal (D : Str) : ∀ v : Nat,
    D.foldl (fun acc d => acc * 10 + (d.toNat - 48)) v = v * 10 ^ D.length + decimalSum D := by
  induction D with
  | nil => intro v; simp [decimalSum]
  | cons c cs ih =>
    intro v
    rw [List.foldl_cons, ih, decimalSum, List.length_cons]
    ring

theorem digitsValue_eq_decimalSum (D : Str) : digitsValue D = decimalSum D := by
  rw [digitsValue, foldl_decimal]
  simp

/-- A run of digits with a digit other than `0` has a positive value. -/
theorem digitsValue_pos_of_nonzero (D : Str) (hDd : ∀ c ∈ D, isDigit c = true)
    (hnz : ∃ c ∈ D, c ≠ '0') : 1 ≤ digitsValue D := by
  induction D using List.reverseRecOn with
  | nil =>
    obtain ⟨c, hc, _⟩ := hnz
    exact absurd hc (List.not_mem_nil c)
  | append_singleton D d ih =>
    rw [digitsValue_snoc]
    obtain ⟨c, hc, hc0⟩ := hnz
    rcases List.mem_append.mp hc with h1 | h1
    · have := ih (fun x hx => hDd x (by simp [hx])) ⟨c, h1, hc0⟩
      omega
    · rw [List.mem_singleton] at h1
      subst h1
      have h48 := toNat_ne_of_ne hc0
      have hdd : isDigit c = true := hDd c (by simp)
      simp only [isDigit, Bool.and_eq_true, decide_eq_true_eq] at hdd
      have : ('0' : Char).toNat = 48 := rfl
      omega

/-- For positive arguments `RowColToCoordinate` returns letters followed by the
decimal digits of the row. -/
theorem RowColToCoordinate_shape (row col : Int) (hr : 1 ≤ row) (hc : 1 ≤ col) :
    ∃ L D : Str, RowColToCoordinate row col = L ++ D ∧ L ≠ [] ∧ D ≠ [] ∧
      (∀ c ∈ L, isUpper c = true) ∧ (∀ c ∈ D, isDigit c = true) := by
  obtain ⟨n, rfl⟩ : ∃ n : Nat, col = (n : Int) := ⟨col.toNat, by omega⟩
  obtain ⟨m, rfl⟩ : ∃ m : Nat, row = (m : Int) := ⟨row.toNat, by omega⟩
  obtain ⟨L, hL1, hL2, _, hL4⟩ := colLoop_spec n n [] (le_refl _)
  obtain ⟨hD1, hD2, _⟩ := fmtNat_spec m
  have hrow : ¬ ((m : Int) < 1 ∨ (n : Int) < 1) := by omega
  have hneg : ¬ ((m : Int) < 0) := by omega
  refine ⟨L, fmtNat m, ?_, hL4 (by omega), hD1, hL2, hD2⟩
  simp only [RowColToCoordinate, hrow, if_false, Int.toNat_ofNat, hL1, List.append_nil, fmtInt,
    hneg, Int.natAbs_ofNat]

/-! ## The claims, continued -/

set_option maxRecDepth 8000 in
/-- C11, as stated, fails: `CoordinateToRowCol` succeeds on `A0` with row 0, and
on `DDDDDDDDDDDDDD1`, whose column value exceeds the 64-bit `int`, with a
negative column. -/
theorem decode_not_one_indexed :
    (CoordinateToRowCol "A0".toList = .ok (0, 1) ∧ ¬ (1 : Int) ≤ 0) ∧
    (CoordinateToRowCol "DDDDDDDDDDDDDD1".toList = .ok (1, -8125148121182007460) ∧
      ¬ (1 : Int) ≤ -8125148121182007460) :=
  ⟨⟨by decide, by decide⟩, by decide, by decide⟩

/-- C11, amended: whenever `CoordinateToRowCol s` succeeds with `(row, col)`,
`row ≥ 0`, and `row ≥ 1` when the digit run of `s` has a digit other than `0`,
and `col ≥ 1` when the base-26 value of the letters of `s` is at most
`2^63 - 1`. -/
theorem decode_result_bounds (s : Str) (row col : Int)
    (h : CoordinateToRowCol s = .ok (row, col)) :
    0 ≤ row ∧ ((∃ c ∈ s.dropWhile isUpper, c ≠ '0') → 1 ≤ row) ∧
      (lettersValue (s.takeWhile isUpper) < 2 ^ 63 → 1 ≤ col) := by
  by_cases hv : isValidCoordinate s = true
  · obtain ⟨L, D, rfl, hL, hD, hLu, hDd⟩ := (isValidCoordinate_iff s).mp hv
    rw [CoordinateToRowCol_append L D hL hD hLu hDd] at h
    split_ifs at h with hlt
    simp only [Except.ok.injEq, Prod.mk.injEq] at h
    obtain ⟨rfl, rfl⟩ := h
    rw [takeWhile_upper_append L D hLu hDd, dropWhile_upper_append L D hLu hDd]
    refine ⟨by omega, fun hnz => ?_, fun hfit => ?_⟩
    · have := digitsValue_pos_of_nonzero D hDd hnz
      omega
    · rw [colOfLetters_eq L hLu hfit]
      have := lettersValue_pos L hL hLu
      omega
  · simp [CoordinateToRowCol, hv] at h

/-- C11, amended, at the coordinate `AA12`. -/
theorem decode_result_bounds_witness :
    CoordinateToRowCol "AA12".toList = .ok (12, 27) ∧
    (0 : Int) ≤ 12 ∧ ((∃ c ∈ "AA12".toList.dropWhile isUpper, c ≠ '0') → (1 : Int) ≤ 12) ∧
      (lettersValue ("AA12".toList.takeWhile isUpper) < 2 ^ 63 → (1 : Int) ≤ 27) :=
  ⟨by decide, decode_result_bounds "AA12".toList 12 27 (by decide)⟩

/-- C12: `RowColToCoordinate row col` is the empty string if and only if
`row < 1` or `col < 1`; for `row ≥ 1` and `col ≥ 1` the result is non-empty and
matches the Coordinate grammar. -/
theorem encode_empty_iff (row col : Int) :
    (RowColToCoordinate row col = [] ↔ (row < 1 ∨ col < 1)) ∧
    (1 ≤ row ∧ 1 ≤ col →
      RowColToCoordinate row col ≠ [] ∧ IsCoordinate (RowColToCoordinate row col)) := by
  have key : 1 ≤ row ∧ 1 ≤ col →
      RowColToCoordinate row col ≠ [] ∧ IsCoordinate (RowColToCoordinate row col) := by
    rintro ⟨hr, hc⟩
    obtain ⟨L, D, hs, hL, hD, hLu, hDd⟩ := RowColToCoordinate_shape row col hr hc
    refine ⟨?_, L, D, hs, hL, hD, hLu, hDd⟩
    rw [hs]
    intro h
    exact hL (List.append_eq_nil.mp h).1
  refine ⟨⟨fun h => ?_, fun h => ?_⟩, key⟩
  · by_contra hn
    exact (key ⟨by omega, by omega⟩).1 h
  · simp [RowColToCoordinate, h]

/-- C12, at row 12 and column 27, and at row 0. -/
theorem encode_empty_iff_witness :
    ((RowColToCoordinate 12 27 = [] ↔ ((12 : Int) < 1 ∨ (27 : Int) < 1)) ∧
      (1 ≤ (12 : Int) ∧ 1 ≤ (27 : Int) →
        RowColToCoordinate 12 27 ≠ [] ∧ IsCoordinate (RowColToCoordinate 12 27))) ∧
    RowColToCoordinate 12 27 = "AA12".toList ∧ RowColToCoordinate 0 27 = [] :=
  ⟨encode_empty_iff 12 27, by decide, by decide⟩

set_option maxRecDepth 8000 in
/-- C13, as stated, fails: the letters `DDDDDDDDDDDDDD` have the base-26 value
10321595952527544156, and `CoordinateToRowCol` returns the column
-8125148121182007460 for `DDDDDDDDDDDDDD1`, the value wrapped to the 64-bit
`int`. -/
theorem decode_column_wraps :
    CoordinateToRowCol ("DDDDDDDDDDDDDD".toList ++ "1".toList) =
      .ok (1, -8125148121182007460) ∧
    base26Sum "DDDDDDDDDDDDDD".toList = 10321595952527544156 ∧
    ((-8125148121182007460 : Int) ≠ ((10321595952527544156 : Nat) : Int)) :=
  ⟨by decide, by decide, by decide⟩

/-- C13, amended: for non-empty upper-case letters `L` whose base-26 value fits
the `int` type and non-empty digits `D` whose decimal value fits the `int` type,
`CoordinateToRowCol (L ++ D)` returns the decimal value of `D` as row and the
bijective base-26 value of `L` (the positional sum with `A = 1`, ..., `Z = 26`)
as column; the columns of `A1`, `Z1` and `AA1` are 1, 26 and 27. -/
theorem decode_values (L D : Str) (hL : L ≠ []) (hD : D ≠ [])
    (hLu : ∀ c ∈ L, isUpper c = true) (hDd : ∀ c ∈ D, isDigit c = true)
    (hLfit : base26Sum L < 2 ^ 63) (hDfit : decimalSum D < 2 ^ 63) :
    CoordinateToRowCol (L ++ D) = .ok ((decimalSum D : Int), (base26Sum L : Int)) ∧
    CoordinateToRowCol "A1".toList = .ok (1, 1) ∧
    CoordinateToRowCol "Z1".toList = .ok (1, 26) ∧
    CoordinateToRowCol "AA1".toList = .ok (1, 27) := by
  refine ⟨?_, by decide, by decide, by decide⟩
  rw [← lettersValue_eq_base26Sum] at hLfit ⊢
  rw [← digitsValue_eq_decimalSum] at hDfit ⊢
  rw [CoordinateToRowCol_append L D hL hD hLu hDd, if_pos hDfit, colOfLetters_eq L hLu hLfit]

/-- C13, amended, at the letters `AA` and the digits `12`. -/
theorem decode_values_witness :
    CoordinateToRowCol ("AA".toList ++ "12".toList) =
      .ok (((decimalSum "12".toList : Nat) : Int), ((base26Sum "AA".toList : Nat) : Int)) ∧
    decimalSum "12".toList = 12 ∧ base26Sum "AA".toList = 27 :=
  ⟨(decode_values "AA".toList "12".toList (by decide) (by decide) (by decide) (by decide)
    (by decide) (by decide)).1, by decide, by decide⟩

/-- The loop of the validator fails at the first line that does not pass the
cell check, with the message for that line and its number. -/
theorem validateLoop_first_offending (lines : List Str) :
    ∀ (i : Nat) (hv : Bool) (j : Nat) (l : Str), lines[j]? = some l →
      ¬ WellFormedCell l →
      (∀ (k : Nat) (l2 : Str), k < j → lines[k]? = some l2 → WellFormedCell l2) →
      validateLoop lines i hv =
        .error (if (Split (TrimSpace l) ":".toList).length < 4 then
            malformedCellError (i + j + 1) (TrimSpace l)
          else invalidCoordinateError (i + j + 1)
            ((Split (TrimSpace l) ":".toList).getD 1 [])) := by
  induction lines with
  | nil => intro i hv j l hj; simp at hj
  | cons l0 rest ih =>
    intro i hv j l hj hbad hfirst
    rw [validateLoop_cons]
    cases j with
    | zero =>
      simp only [List.getElem?_cons_zero, Option.some.injEq] at hj
      subst hj
      unfold WellFormedCell at hbad
      have hc : HasPrefix (TrimSpace l0) "cell:".toList = true := by
        by_contra hn
        exact hbad (fun h => absurd h hn)
      rw [if_pos hc]
      by_cases h4 : (Split (TrimSpace l0) ":".toList).length < 4
      · rw [if_pos h4, if_pos h4]
      · rw [if_neg h4, if_neg h4]
        have hco : isValidCoordinate ((Split (TrimSpace l0) ":".toList).getD 1 []) = false := by
          cases hval : isValidCoordinate ((Split (TrimSpace l0) ":".toList).getD 1 [])
          · rfl
          · exact absurd (fun _ => ⟨by omega, hval⟩) hbad
        rw [if_pos hco]
    | succ j =>
      have h0 : WellFormedCell l0 := hfirst 0 l0 (by omega) (by simp)
      have hj2 : rest[j]? = some l := by simpa using hj
      have hfirst2 : ∀ (k : Nat) (l2 : Str), k < j → rest[k]? = some l2 → WellFormedCell l2 :=
        fun k l2 hk hl2 => hfirst (k + 1) l2 (by omega) (by simpa using hl2)
      have e1 : i + 1 + j + 1 = i + (j + 1) + 1 := by omega
      by_cases hc : HasPrefix (TrimSpace l0) "cell:".toList = true
      · obtain ⟨h4, hval⟩ := h0 hc
        have h4n : ¬ (Split (TrimSpace l0) ":".toList).length < 4 := by omega
        have hvn : ¬ isValidCoordinate ((Split (TrimSpace l0) ":".toList).getD 1 []) = false := by
          rw [hval]; decide
        rw [if_pos hc, if_neg h4n, if_neg hvn, ih (i + 1) hv j l hj2 hbad hfirst2, e1]
      · rw [if_neg hc, ih (i + 1) _ j l hj2 hbad hfirst2, e1]

/-- A text record `cell:<coord>:t:<escaped value>` with a valid coordinate is a
single line and splits on colon into exactly the 4 fields `cell`, the
coordinate, `t` and the escaped value. -/
theorem escaped_record_fields (coord value : Str) (hc : isValidCoordinate coord = true) :
    (∀ s : Str, ':' ∉ escapeForSocialCalc s ∧ '\n' ∉ escapeForSocialCalc s) ∧
    Split ("cell:".toList ++ coord ++ ":t:".toList ++ escapeForSocialCalc value) "\n".toList =
      ["cell:".toList ++ coord ++ ":t:".toList ++ escapeForSocialCalc value] ∧
    Split ("cell:".toList ++ coord ++ ":t:".toList ++ escapeForSocialCalc value) ":".toList =
      ["cell".toList, coord, "t".toList, escapeForSocialCalc value] := by
  have e1 : "\n".toList = ['\n'] := rfl
  have e2 : ":".toList = [':'] := rfl
  have hshape : "cell:".toList ++ coord ++ ":t:".toList ++ escapeForSocialCalc value =
      "cell".toList ++ ':' :: (coord ++ ':' :: ("t".toList ++ ':' ::
        escapeForSocialCalc value)) := by simp
  refine ⟨fun s => ⟨(not_mem_escape s).2, (not_mem_escape s).1⟩, ?_, ?_⟩
  · rw [e1, Split_single]
    apply splitGo_no_sep
    intro hm
    simp only [List.mem_append] at hm
    rcases hm with ((hm | hm) | hm) | hm
    · exact absurd hm (by decide)
    · exact absurd hm (newline_not_mem_coordinate hc)
    · exact absurd hm (by decide)
    · exact absurd hm (not_mem_escape value).1
  · rw [hshape, e2, Split_single, splitGo_append_sep _ _ _ (by decide),
      splitGo_append_sep _ _ _ (colon_not_mem_coordinate hc),
      splitGo_append_sep _ _ _ (by decide), splitGo_no_sep _ _ (not_mem_escape value).2]

/-- The fields of the text record for the coordinate `A1` and the value `a:b`,
backslash, `c`, newline, `d`. -/
theorem escaped_record_fields_example :
    Split ("cell:".toList ++ "A1".toList ++ ":t:".toList ++
        escapeForSocialCalc "a:b\\c\nd".toList) ":".toList =
      ["cell".toList, "A1".toList, "t".toList, escapeForSocialCalc "a:b\\c\nd".toList] ∧
    escapeForSocialCalc "a:b\\c\nd".toList = "a\\cb\\bc\\nd".toList :=
  ⟨(escaped_record_fields "A1".toList "a:b\\c\nd".toList (by decide)).2.2, by decide⟩

/-- C18: for every string `s`, the three sequential replacements of
`escapeForSocialCalc` give the concatenation, over the characters of `s`, of
`\b` for a backslash, `\n` for a newline, `\c` for a colon and the character
itself otherwise. -/
theorem escape_single_pass (s : Str) : escapeForSocialCalc s = s.flatMap escapeChar :=
  escape_eq_flatMap s

/-- C19: when a line of the input fails the validator's cell check, the error
is the cell-record error of the first such line, whether or not a version line
is present, and the number it cites is the 1-based position of that line among
all newline-separated lines of the input, blank lines included; for two empty
lines followed by `cell:A1` it cites line 3. -/
theorem validate_first_offending_line (data : Str) (j : Nat) (l : Str)
    (hj : (Split data "\n".toList)[j]? = some l)
    (hbad : ¬ WellFormedCell l)
    (hfirst : ∀ (k : Nat) (l2 : Str), k < j → (Split data "\n".toList)[k]? = some l2 →
      WellFormedCell l2) :
    ValidateSocialCalcData data =
      .error (if (Split (TrimSpace l) ":".toList).length < 4 then
          "invalid cell definition at line ".toList ++ fmtNat (j + 1) ++ ": ".toList ++
            TrimSpace l
        else "invalid coordinate at line ".toList ++ fmtNat (j + 1) ++ ": ".toList ++
          (Split (TrimSpace l) ":".toList).getD 1 []) ∧
    ValidateSocialCalcData "\n\ncell:A1".toList =
      .error "invalid cell definition at line 3: cell:A1".toList := by
  refine ⟨?_, by decide⟩
  unfold ValidateSocialCalcData
  simp only []
  rw [validateLoop_first_offending _ 0 false j l hj hbad hfirst, Nat.zero_add]
  rfl

/-- C19, at the input of two empty lines followed by `cell:A1`. -/
theorem validate_first_offending_line_witness :
    ValidateSocialCalcData "\n\ncell:A1".toList =
      .error (if (Split (TrimSpace "cell:A1".toList) ":".toList).length < 4 then
          "invalid cell definition at line ".toList ++ fmtNat (2 + 1) ++ ": ".toList ++
            TrimSpace "cell:A1".toList
        else "invalid coordinate at line ".toList ++ fmtNat (2 + 1) ++ ": ".toList ++
          (Split (TrimSpace "cell:A1".toList) ":".toList).getD 1 []) :=
  (validate_first_offending_line "\n\ncell:A1".toList 2 "cell:A1".toList (by decide)
    (fun h => absurd (h (by decide)).1 (by decide))
    (fun k l2 hk hl2 h => by
      have hs : Split "\n\ncell:A1".toList "\n".toList = [[], [], "cell:A1".toList] := by decide
      rw [hs] at hl2
      have hl : l2 = [] := by
        rcases k with _ | _ | k
        · simpa using hl2.symm
        · simpa using hl2.symm
        · omega
      subst hl
      exact absurd h (by decide))).1

/-! ## Lemmas: the round trip of a text cell -/

theorem isSpace_of_isUpper {c : Char} (h : isUpper c = true) : isSpace c = false := by
  simp only [isUpper, Bool.and_eq_true, decide_eq_true_eq] at h
  unfold isSpace
  simp only [Bool.or_eq_false_iff, Bool.and_eq_false_imp, decide_eq_false_iff_not,
    decide_eq_true_eq]
  omega

theorem isSpace_of_isDigit {c : Char} (h : isDigit c = true) : isSpace c = false := by
  simp only [isDigit, Bool.and_eq_true, decide_eq_true_eq] at h
  unfold isSpace
  simp only [Bool.or_eq_false_iff, Bool.and_eq_false_imp, decide_eq_false_iff_not,
    decide_eq_true_eq]
  omega

theorem eq_nil_or_snoc (l : Str) : l = [] ∨ ∃ (q : Str) (x : Char), l = q ++ [x] := by
  rcases List.eq_nil_or_concat l with h | ⟨q, x, h⟩
  · exact Or.inl h
  · exact Or.inr ⟨q, x, by rw [h, List.concat_eq_append]⟩

theorem trimRight_snoc_nonspace (q : Str) (x : Char) (hx : isSpace x = false) :
    trimRight (q ++ [x]) = q ++ [x] := by
  have := trimRight_append_nonspace q [] x hx
  rw [trimRight_nil] at this
  exact this

theorem length_trimRight_le (s : Str) : (trimRight s).length ≤ s.length := by
  unfold trimRight
  rw [List.length_reverse]
  have := (List.dropWhile_sublist isSpace (l := s.reverse)).length_le
  rw [List.length_reverse] at this
  exact this

theorem length_TrimSpace_le (s : Str) : (TrimSpace s).length ≤ s.length := by
  unfold TrimSpace trimLeft
  have h1 := length_trimRight_le (List.dropWhile isSpace s)
  have h2 := (List.dropWhile_sublist isSpace (l := s)).length_le
  omega

/-- A text without trailing white space is not changed by `trimRight`. -/
theorem trimRight_of_TrimSpace_eq (v : Str) (h : TrimSpace v = v) : trimRight v = v := by
  rcases eq_nil_or_snoc v with rfl | ⟨q, x, rfl⟩
  · rfl
  · cases hx : isSpace x
    · exact trimRight_snoc_nonspace q x hx
    · have h1 := TrimSpace_snoc_space x q hx
      have h2 := length_TrimSpace_le q
      rw [h] at h1
      rw [← h1] at h2
      simp at h2

/-- A text whose characters are not white space is not changed by trimming. -/
theorem TrimSpace_of_no_space (s : Str) (h : ∀ c ∈ s, isSpace c = false) : TrimSpace s = s := by
  unfold TrimSpace
  have hl : trimLeft s = s := by
    cases s with
    | nil => rfl
    | cons a t => exact trimLeft_cons_nonspace a t (h a (List.mem_cons_self _ _))
  rw [hl]
  rcases eq_nil_or_snoc s with rfl | ⟨q, x, rfl⟩
  · rfl
  · exact trimRight_snoc_nonspace q x (h x (by simp))

theorem TrimSpace_coordinate {coord : Str} (h : isValidCoordinate coord = true) :
    TrimSpace coord = coord := by
  apply TrimSpace_of_no_space
  intro c hc
  rcases mem_coordinate h c hc with h1 | h1
  · exact isSpace_of_isUpper h1
  · exact isSpace_of_isDigit h1

/-- Trimming `<coord>:<text>`, for a valid coordinate, trims the text on the
right only. -/
theorem TrimSpace_coord_colon (coord r : Str) (hc : isValidCoordinate coord = true) :
    TrimSpace (coord ++ ':' :: r) = coord ++ ':' :: trimRight r := by
  unfold TrimSpace
  have hl : trimLeft (coord ++ ':' :: r) = coord ++ ':' :: r := by
    cases coord with
    | nil => exact trimLeft_cons_nonspace _ _ (by decide)
    | cons a t =>
      rcases mem_coordinate hc a (List.mem_cons_self _ _) with h1 | h1
      · exact trimLeft_cons_nonspace a _ (isSpace_of_isUpper h1)
      · exact trimLeft_cons_nonspace a _ (isSpace_of_isDigit h1)
  rw [hl]
  exact trimRight_append_nonspace coord r ':' (by decide)

theorem takeWhile_not_colon (p r : Str) (hp : ':' ∉ p) :
    (p ++ ':' :: r).takeWhile (fun c => c != ':') = p := by
  induction p with
  | nil => simp [List.takeWhile_cons]
  | cons a t ih =>
    have ha : a ≠ ':' := fun e => hp (by simp [e])
    have ht : ':' ∉ t := fun e => hp (by simp [e])
    rw [List.cons_append, List.takeWhile_cons]
    simp [ha, ih ht]

theorem dropWhile_not_colon (p r : Str) (hp : ':' ∉ p) :
    (p ++ ':' :: r).dropWhile (fun c => c != ':') = ':' :: r := by
  induction p with
  | nil => simp [List.dropWhile_cons]
  | cons a t ih =>
    have ha : a ≠ ':' := fun e => hp (by simp [e])
    have ht : ':' ∉ t := fun e => hp (by simp [e])
    rw [List.cons_append, List.dropWhile_cons]
    simp [ha, ih ht]

/-- The record of the compact line `<coord>:<value>` for a text value. -/
theorem recordOf_text (coord v : Str) (hc : isValidCoordinate coord = true)
    (hv : TrimSpace v = v) (he : v.head? ≠ some '=') :
    recordOf (coord ++ ':' :: v) =
      some ("cell:".toList ++ coord ++ ":t:".toList ++ escapeForSocialCalc v) := by
  have hline : TrimSpace (coord ++ ':' :: v) = coord ++ ':' :: v := by
    rw [TrimSpace_coord_colon coord v hc, trimRight_of_TrimSpace_eq v hv]
  have hnc := colon_not_mem_coordinate hc
  unfold recordOf
  simp only []
  rw [hline, takeWhile_not_colon coord v hnc, dropWhile_not_colon coord v hnc]
  simp only [List.drop_succ_cons, List.drop_zero, TrimSpace_coordinate hc, hv, hc, he, if_true,
    if_false]
  rw [if_pos]
  exact ⟨by simp, by simp⟩

theorem escapeChar_last (x : Char) (hx : isSpace x = false) :
    ∃ (q : Str) (z : Char), escapeChar x = q ++ [z] ∧ isSpace z = false := by
  unfold escapeChar
  split_ifs
  · exact ⟨['\\'], 'b', rfl, by decide⟩
  · exact ⟨['\\'], 'n', rfl, by decide⟩
  · exact ⟨['\\'], 'c', rfl, by decide⟩
  · exact ⟨[], x, rfl, hx⟩

/-- Escaping a text without trailing white space gives a text without trailing
white space. -/
theorem trimRight_escape (v : Str) (hv : TrimSpace v = v) :
    trimRight (escapeForSocialCalc v) = escapeForSocialCalc v := by
  rw [escape_eq_flatMap]
  rcases eq_nil_or_snoc v with rfl | ⟨q, x, rfl⟩
  · rfl
  · have hx : isSpace x = false := by
      cases hx : isSpace x
      · rfl
      · have h1 := TrimSpace_snoc_space x q hx
        have h2 := length_TrimSpace_le q
        rw [hv] at h1
        rw [← h1] at h2
        simp at h2
    obtain ⟨q2, z, hq, hz⟩ := escapeChar_last x hx
    have : List.flatMap (q ++ [x]) escapeChar = (List.flatMap q escapeChar ++ q2) ++ [z] := by
      simp [List.flatMap_append, hq]
    rw [this]
    exact trimRight_snoc_nonspace _ z hz

/-- Trimming a record `cell:<coord>:<kind>:<rest>` trims its rest on the right
only. -/
theorem TrimSpace_record (coord kind r : Str) :
    TrimSpace ("cell".toList ++ ':' :: (coord ++ ':' :: (kind ++ ':' :: r))) =
      "cell".toList ++ ':' :: (coord ++ ':' :: (kind ++ ':' :: trimRight r)) := by
  have e : "cell".toList = ['c', 'e', 'l', 'l'] := rfl
  unfold TrimSpace
  rw [e]
  simp only [List.cons_append, List.nil_append]
  rw [trimLeft_cons_nonspace _ _ (by decide)]
  have := trimRight_append_nonspace ("cell:".toList ++ coord ++ ':' :: kind) r ':' (by decide)
  simpa using this

/-- The compact line of the text record of `<coord>:<value>`. -/
theorem compactLineOf_text (coord v : Str) (hc : isValidCoordinate coord = true)
    (hne : v ≠ []) (hv : TrimSpace v = v) :
    compactLineOf ("cell:".toList ++ coord ++ ":t:".toList ++ escapeForSocialCalc v) =
      some (coord ++ ":".toList ++ v) := by
  have e2 : ":".toList = [':'] := rfl
  have hshape : "cell:".toList ++ coord ++ ":t:".toList ++ escapeForSocialCalc v =
      "cell".toList ++ ':' :: (coord ++ ':' :: ("t".toList ++ ':' ::
        escapeForSocialCalc v)) := by simp
  have htrim : TrimSpace ("cell:".toList ++ coord ++ ":t:".toList ++ escapeForSocialCalc v) =
      "cell".toList ++ ':' :: (coord ++ ':' :: ("t".toList ++ ':' ::
        escapeForSocialCalc v)) := by
    rw [hshape, TrimSpace_record, trimRight_escape v hv]
  have hsplit : Split ("cell".toList ++ ':' :: (coord ++ ':' :: ("t".toList ++ ':' ::
      escapeForSocialCalc v))) ":".toList =
      ["cell".toList, coord, "t".toList, escapeForSocialCalc v] := by
    rw [e2, Split_single, splitGo_append_sep _ _ _ (by decide),
      splitGo_append_sep _ _ _ (colon_not_mem_coordinate hc),
      splitGo_append_sep _ _ _ (by decide), splitGo_no_sep _ _ (not_mem_escape v).2]
  have hpre : HasPrefix ("cell".toList ++ ':' :: (coord ++ ':' :: ("t".toList ++ ':' ::
      escapeForSocialCalc v))) "cell:".toList = true := by
    simp [HasPrefix, List.isPrefixOf]
  unfold compactLineOf
  simp only []
  rw [htrim, hsplit, hpre]
  simp [unescape_escape, hne]

theorem some_of_ite_nil (value coord out : Str)
    (h : (if value = [] then none else some (coord ++ ":".toList ++ value)) = some out) :
    value ≠ [] ∧ out = coord ++ ':' :: value := by
  by_cases hv : value = []
  · rw [if_pos hv] at h
    exact absurd h (by simp)
  · rw [if_neg hv] at h
    simp only [Option.some.injEq] at h
    refine ⟨hv, ?_⟩
    rw [← h]
    simp

/-- A compact line emitted by the converter is `<coord>:<value>` with a
coordinate free of colons and a non-empty value. -/
theorem compactLineOf_some {l out : Str} (h : compactLineOf l = some out) :
    ∃ coord value : Str, out = coord ++ ':' :: value ∧ ':' ∉ coord ∧ value ≠ [] := by
  have e2 : ":".toList = [':'] := rfl
  unfold compactLineOf at h
  simp only [] at h
  by_cases h1 : HasPrefix (TrimSpace l) "cell:".toList = true ∧
      4 ≤ (Split (TrimSpace l) ":".toList).length
  · rw [if_pos h1] at h
    obtain ⟨h2, h3⟩ := some_of_ite_nil _ _ _ h
    · refine ⟨(Split (TrimSpace l) ":".toList).getD 1 [], _, h3, ?_, h2⟩
      have hlen := h1.2
      have hmem : ∀ f ∈ Split (TrimSpace l) ":".toList, ':' ∉ f := by
        rw [e2, Split_single]
        exact not_mem_of_mem_splitGo ':' _
      cases hs : Split (TrimSpace l) ":".toList with
      | nil => rw [hs] at hlen; simp at hlen
      | cons a rest =>
        cases rest with
        | nil => rw [hs] at hlen; simp at hlen
        | cons b rest2 =>
          rw [hs] at hmem
          exact hmem b (by simp)
  · rw [if_neg h1] at h
    exact absurd h (by simp)

/-- C14, at the compact line `A1:=SUM(A1:B2)`: the parser writes the formula
unescaped into the record `cell:A1:vtf:n:0:SUM(A1:B2)`, which has 7 fields, and
the converter reads the formula from field 6 alone, so the round trip returns
`A1:=SUM(A1`. -/
theorem formula_with_colon_truncated :
    ParseTouchCalcMSC ("A1".toList ++ ":=".toList ++ "SUM(A1:B2)".toList) =
      .ok "version:1.4\ncell:A1:vtf:n:0:SUM(A1:B2)\nsheet:c:10:r:20".toList ∧
    ConvertSocialCalcToMSC "version:1.4\ncell:A1:vtf:n:0:SUM(A1:B2)\nsheet:c:10:r:20".toList =
      "A1:=SUM(A1".toList ∧
    "A1:=SUM(A1".toList ≠ "A1".toList ++ ":=".toList ++ "SUM(A1:B2)".toList := by
  decide

/-- C15: for every coordinate `c` matching the grammar and every value `v` that
is non-empty, contains no newline, has no leading or trailing white space and
does not start with `=`, converting the parse of `c:v` back gives `c:v`. -/
theorem text_cell_roundtrip (c v : Str) (hc : IsCoordinate c) (hne : v ≠ [])
    (hnl : '\n' ∉ v) (hv : TrimSpace v = v) (he : v.head? ≠ some '=') :
    ∃ out : Str, ParseTouchCalcMSC (c ++ ":".toList ++ v) = .ok out ∧
      ConvertSocialCalcToMSC out = c ++ ":".toList ++ v := by
  have hcv : isValidCoordinate c = true := (isValidCoordinate_iff c).mpr hc
  have e1 : "\n".toList = ['\n'] := rfl
  have hx : c ++ ":".toList ++ v = c ++ ':' :: v := by simp
  have hxnl : '\n' ∉ c ++ ':' :: v := by
    intro hm
    rcases List.mem_append.mp hm with hm | hm
    · exact newline_not_mem_coordinate hcv hm
    · rcases List.mem_cons.mp hm with hm | hm
      · exact absurd hm (by decide)
      · exact hnl hm
  have hrnl : '\n' ∉ "cell:".toList ++ c ++ ":t:".toList ++ escapeForSocialCalc v := by
    intro hm
    simp only [List.mem_append] at hm
    rcases hm with ((hm | hm) | hm) | hm
    · exact absurd hm (by decide)
    · exact newline_not_mem_coordinate hcv hm
    · exact absurd hm (by decide)
    · exact (not_mem_escape v).1 hm
  refine ⟨_, ParseTouchCalcMSC_eq _, ?_⟩
  rw [hx, e1, Split_single, splitGo_no_sep _ _ hxnl]
  simp only [List.filterMap_cons, List.filterMap_nil, recordOf_text c v hcv hv he,
    List.singleton_append]
  unfold ConvertSocialCalcToMSC
  simp only []
  rw [foldl_convertStep, e1, Split_single, splitGo_Join _ _ (by simp)]
  · have h1 : compactLineOf "version:1.4".toList = none := by decide
    have h2 : compactLineOf "sheet:c:10:r:20".toList = none := by decide
    simp only [List.filterMap_cons, List.filterMap_nil, h1, h2,
      compactLineOf_text c v hcv hne hv, List.nil_append, Join]
    simp
  · intro l hl
    simp only [List.mem_cons, List.mem_singleton, List.not_mem_nil, or_false] at hl
    rcases hl with rfl | rfl | rfl
    · decide
    · exact hrnl
    · decide

/-- C15, at the coordinate `B2` and the value `a:b`, backslash, `c`. -/
theorem text_cell_roundtrip_witness :
    ∃ out : Str, ParseTouchCalcMSC ("B2".toList ++ ":".toList ++ "a:b\\c".toList) = .ok out ∧
      ConvertSocialCalcToMSC out = "B2".toList ++ ":".toList ++ "a:b\\c".toList :=
  text_cell_roundtrip "B2".toList "a:b\\c".toList ((isValidCoordinate_iff _).mp (by decide))
    (by decide) (by decide) (by decide) (by decide)

/-- C17, as stated, fails: for the record `cell:A1:t:a\nb` (with the escape
sequence backslash, `n`) the converter returns `A1:a`, newline, `b`, whose
second line `b` contains no colon. -/
theorem convert_line_without_colon :
    ConvertSocialCalcToMSC "cell:A1:t:a\\nb".toList = "A1:a\nb".toList ∧
    ConvertSocialCalcToMSC "cell:A1:t:a\\nb".toList ≠ [] ∧
    "b".toList ∈ Split (ConvertSocialCalcToMSC "cell:A1:t:a\\nb".toList) "\n".toList ∧
    ':' ∉ "b".toList := by
  decide

/-- C17, amended: for every expanded text, the output of
`ConvertSocialCalcToMSC` is the newline-join of the compact lines its loop
emits, and every emitted line is `<coord>:<value>` with a colon-free coordinate
and a non-empty value; and when none of the emitted lines contains a newline,
every line of a non-empty output, split on newline, contains a colon and has a
non-empty text after its first colon. -/
theorem convert_lines_compact (x : Str) :
    ConvertSocialCalcToMSC x =
      Join ((Split x "\n".toList).foldl convertStep []) "\n".toList ∧
    (∀ out ∈ (Split x "\n".toList).foldl convertStep [],
      ∃ coord value : Str, out = coord ++ ':' :: value ∧ ':' ∉ coord ∧ value ≠ []) ∧
    ((∀ out ∈ (Split x "\n".toList).foldl convertStep [], '\n' ∉ out) →
      ConvertSocialCalcToMSC x ≠ [] →
      ∀ line ∈ Split (ConvertSocialCalcToMSC x) "\n".toList,
        ':' ∈ line ∧ (line.dropWhile (fun c => c != ':')).drop 1 ≠ []) := by
  have e1 : "\n".toList = ['\n'] := rfl
  have hfold : (Split x "\n".toList).foldl convertStep [] =
      (Split x "\n".toList).filterMap compactLineOf := by
    rw [foldl_convertStep, List.nil_append]
  have hform : ∀ out ∈ (Split x "\n".toList).foldl convertStep [],
      ∃ coord value : Str, out = coord ++ ':' :: value ∧ ':' ∉ coord ∧ value ≠ [] := by
    intro out hout
    rw [hfold] at hout
    obtain ⟨l, _, hl⟩ := List.mem_filterMap.mp hout
    exact compactLineOf_some hl
  have hconv : ConvertSocialCalcToMSC x =
      Join ((Split x "\n".toList).foldl convertStep []) "\n".toList := rfl
  refine ⟨hconv, hform, ?_⟩
  intro hnl hne line hline
  rw [hconv] at hne hline
  have hls : (Split x "\n".toList).foldl convertStep [] ≠ [] := by
    intro h
    rw [h] at hne
    exact hne rfl
  have hsp : ∀ ls : List Str, ls ≠ [] → (∀ out ∈ ls, '\n' ∉ out) →
      Split (Join ls "\n".toList) "\n".toList = ls := by
    intro ls h1 h2
    rw [e1, Split_single]
    exact splitGo_Join '\n' ls h1 h2
  rw [hsp _ hls hnl] at hline
  obtain ⟨coord, value, rfl, hco, hval⟩ := hform line hline
  refine ⟨by simp, ?_⟩
  rw [dropWhile_not_colon coord value hco]
  simpa using hval

/-- C17, amended, at the expanded text `version:1.4`, `cell:A1:t:hi`,
`cell:C3:v:42`, `cell:B2:vtf:n:0:A1+A2`. -/
theorem convert_lines_compact_witness :
    "C3:42".toList ∈ Split (ConvertSocialCalcToMSC
        "version:1.4\ncell:A1:t:hi\ncell:C3:v:42\ncell:B2:vtf:n:0:A1+A2".toList) "\n".toList ∧
    ':' ∈ "C3:42".toList ∧
    ("C3:42".toList.dropWhile (fun c => c != ':')).drop 1 ≠ [] :=
  ⟨by decide,
    (convert_lines_compact
      "version:1.4\ncell:A1:t:hi\ncell:C3:v:42\ncell:B2:vtf:n:0:A1+A2".toList).2.2
      (by decide) (by decide) "C3:42".toList (by decide)⟩

/-- C20, at the label `local`: the default document has the line
`cell:B3:t:Storage Backend:`, whose payload holds a raw colon, so the line
splits on colon into 5 fields, and the converter returns `B3:Storage Backend`
for it, without the colon of the payload. -/
theorem default_document_raw_colon :
    "cell:B3:t:Storage Backend:".toList ∈
      Split (CreateDefaultTouchCalcData "local".toList) "\n".toList ∧
    (Split "cell:B3:t:Storage Backend:".toList ":".toList).length = 5 ∧
    "B3:Storage Backend".toList ∈
      Split (ConvertSocialCalcToMSC (CreateDefaultTouchCalcData "local".toList)) "\n".toList ∧
    "B3:Storage Backend:".toList ∉
      Split (ConvertSocialCalcToMSC (CreateDefaultTouchCalcData "local".toList)) "\n".toList := by
  decide

/-! ## Lemmas: the round trip of a formula cell without colon -/

theorem TrimSpace_formula_value (f : Str) (hf : TrimSpace f = f) :
    TrimSpace ('=' :: f) = '=' :: f := by
  unfold TrimSpace
  rw [trimLeft_cons_nonspace _ _ (by decide)]
  have := trimRight_append_nonspace [] f '=' (by decide)
  rw [List.nil_append] at this
  rw [this, trimRight_of_TrimSpace_eq f hf, List.nil_append]

/-- The record of the compact line `<coord>:=<formula>`. -/
theorem recordOf_formula (coord f : Str) (hc : isValidCoordinate coord = true)
    (hf : TrimSpace f = f) :
    recordOf (coord ++ ':' :: '=' :: f) =
      some ("cell:".toList ++ coord ++ ":vtf:n:0:".toList ++ f) := by
  have hval := TrimSpace_formula_value f hf
  have hline : TrimSpace (coord ++ ':' :: '=' :: f) = coord ++ ':' :: '=' :: f := by
    rw [TrimSpace_coord_colon coord _ hc, trimRight_of_TrimSpace_eq _ hval]
  have hnc := colon_not_mem_coordinate hc
  unfold recordOf
  simp only []
  rw [hline, takeWhile_not_colon coord _ hnc, dropWhile_not_colon coord _ hnc]
  simp only [List.drop_succ_cons, List.drop_zero, TrimSpace_coordinate hc, hval, hc,
    List.head?_cons, if_true]
  rw [if_pos]
  exact ⟨by simp, by simp⟩

/-- The compact line of the formula record of `<coord>:=<formula>` for a formula
without colon. -/
theorem compactLineOf_formula (coord f : Str) (hc : isValidCoordinate coord = true)
    (hf : TrimSpace f = f) (hcolon : ':' ∉ f) :
    compactLineOf ("cell:".toList ++ coord ++ ":vtf:n:0:".toList ++ f) =
      some (coord ++ ":=".toList ++ f) := by
  have e2 : ":".toList = [':'] := rfl
  have hshape : "cell:".toList ++ coord ++ ":vtf:n:0:".toList ++ f =
      "cell".toList ++ ':' :: (coord ++ ':' :: ("vtf".toList ++ ':' ::
        ("n".toList ++ ':' :: ("0".toList ++ ':' :: f)))) := by simp
  have hr : trimRight ("n".toList ++ ':' :: ("0".toList ++ ':' :: f)) =
      "n".toList ++ ':' :: ("0".toList ++ ':' :: f) := by
    have := trimRight_append_nonspace "n:0".toList f ':' (by decide)
    rw [trimRight_of_TrimSpace_eq f hf] at this
    simpa using this
  have htrim : TrimSpace ("cell:".toList ++ coord ++ ":vtf:n:0:".toList ++ f) =
      "cell".toList ++ ':' :: (coord ++ ':' :: ("vtf".toList ++ ':' ::
        ("n".toList ++ ':' :: ("0".toList ++ ':' :: f)))) := by
    rw [hshape, TrimSpace_record, hr]
  have hsplit : Split ("cell".toList ++ ':' :: (coord ++ ':' :: ("vtf".toList ++ ':' ::
      ("n".toList ++ ':' :: ("0".toList ++ ':' :: f))))) ":".toList =
      ["cell".toList, coord, "vtf".toList, "n".toList, "0".toList, f] := by
    rw [e2, Split_single, splitGo_append_sep _ _ _ (by decide),
      splitGo_append_sep _ _ _ (colon_not_mem_coordinate hc),
      splitGo_append_sep _ _ _ (by decide), splitGo_append_sep _ _ _ (by decide),
      splitGo_append_sep _ _ _ (by decide), splitGo_no_sep _ _ hcolon]
  have hpre : HasPrefix ("cell".toList ++ ':' :: (coord ++ ':' :: ("vtf".toList ++ ':' ::
      ("n".toList ++ ':' :: ("0".toList ++ ':' :: f))))) "cell:".toList = true := by
    simp [HasPrefix, List.isPrefixOf]
  unfold compactLineOf
  simp only []
  rw [htrim, hsplit, hpre]
  simp

/-- A formula cell whose formula has no colon survives the round trip through
the parser and the converter. -/
theorem formula_roundtrip_no_colon (c f : Str) (hc : IsCoordinate c) (hnl : '\n' ∉ f)
    (hf : TrimSpace f = f) (hcolon : ':' ∉ f) :
    ∃ out : Str, ParseTouchCalcMSC (c ++ ":=".toList ++ f) = .ok out ∧
      ConvertSocialCalcToMSC out = c ++ ":=".toList ++ f := by
  have hcv : isValidCoordinate c = true := (isValidCoordinate_iff c).mpr hc
  have e1 : "\n".toList = ['\n'] := rfl
  have hx : c ++ ":=".toList ++ f = c ++ ':' :: '=' :: f := by simp
  have hxnl : '\n' ∉ c ++ ':' :: '=' :: f := by
    intro hm
    rcases List.mem_append.mp hm with hm | hm
    · exact newline_not_mem_coordinate hcv hm
    · rcases List.mem_cons.mp hm with hm | hm
      · exact absurd hm (by decide)
      · rcases List.mem_cons.mp hm with hm | hm
        · exact absurd hm (by decide)
        · exact hnl hm
  have hrnl : '\n' ∉ "cell:".toList ++ c ++ ":vtf:n:0:".toList ++ f := by
    intro hm
    simp only [List.mem_append] at hm
    rcases hm with ((hm | hm) | hm) | hm
    · exact absurd hm (by decide)
    · exact newline_not_mem_coordinate hcv hm
    · exact absurd hm (by decide)
    · exact hnl hm
  refine ⟨_, ParseTouchCalcMSC_eq _, ?_⟩
  rw [hx, e1, Split_single, splitGo_no_sep _ _ hxnl]
  simp only [List.filterMap_cons, List.filterMap_nil, recordOf_formula c f hcv hf,
    List.singleton_append]
  unfold ConvertSocialCalcToMSC
  simp only []
  rw [foldl_convertStep, e1, Split_single, splitGo_Join _ _ (by simp)]
  · have h1 : compactLineOf "version:1.4".toList = none := by decide
    have h2 : compactLineOf "sheet:c:10:r:20".toList = none := by decide
    simp only [List.filterMap_cons, List.filterMap_nil, h1, h2,
      compactLineOf_formula c f hcv hf hcolon, List.nil_append, Join]
    simp
  · intro l hl
    simp only [List.mem_cons, List.mem_singleton, List.not_mem_nil, or_false] at hl
    rcases hl with rfl | rfl | rfl
    · decide
    · exact hrnl
    · decide

/-- The default document passes the validator for every label without a
newline. -/
theorem default_document_valid_no_newline (label : Str) (hnl : '\n' ∉ label) :
    ValidateSocialCalcData (CreateDefaultTouchCalcData label) = .ok () := by
  have e1 : "\n".toList = ['\n'] := rfl
  have hlab : "cell:C3:t:".toList ++ label =
      "cell".toList ++ ':' :: ("C3".toList ++ ':' :: ("t".toList ++ ':' :: label)) := rfl
  have hwf : WellFormedCell ("cell:C3:t:".toList ++ label) := by
    rw [hlab]
    exact wellFormed_record "C3".toList "t".toList label (by decide) (by decide)
  have hlnl : '\n' ∉ "cell:C3:t:".toList ++ label := by
    intro hm
    rcases List.mem_append.mp hm with hm | hm
    · exact absurd hm (by decide)
    · exact hnl hm
  rw [Validate_ok_iff]
  unfold CreateDefaultTouchCalcData
  simp only []
  rw [e1, Split_single, splitGo_Join _ _ (by simp)]
  · constructor
    · intro l hl
      simp only [List.mem_cons, List.mem_singleton, List.not_mem_nil, or_false] at hl
      rcases hl with rfl | rfl | rfl | rfl | rfl | rfl | rfl | rfl | rfl | rfl | rfl | rfl |
        rfl | rfl | rfl
      all_goals first
        | exact hwf
        | (unfold WellFormedCell; decide)
    · exact ⟨"version:1.4".toList, List.mem_cons_self _ _, by unfold IsVersionLine; decide⟩
  · intro l hl
    simp only [List.mem_cons, List.mem_singleton, List.not_mem_nil, or_false] at hl
    rcases hl with rfl | rfl | rfl | rfl | rfl | rfl | rfl | rfl | rfl | rfl | rfl | rfl |
      rfl | rfl | rfl
    all_goals first
      | exact hlnl
      | decide

/-! ## Lemmas: the text records in the parser's output -/

/-- The two shapes of a record emitted for a line. -/
theorem recordOf_cases {line rec : Str} (h : recordOf line = some rec) :
    ∃ coord value : Str, isValidCoordinate coord = true ∧
      (rec = "cell:".toList ++ coord ++ ":vtf:n:0:".toList ++ value.drop 1 ∨
       rec = "cell:".toList ++ coord ++ ":t:".toList ++ escapeForSocialCalc value) := by
  unfold recordOf at h
  simp only [] at h
  split_ifs at h with h1 h2 h3
  · simp only [Option.some.injEq] at h
    exact ⟨_, _, h2, Or.inl h.symm⟩
  · simp only [Option.some.injEq] at h
    exact ⟨_, _, h2, Or.inr h.symm⟩

/-- The kind field of a formula record is `vtf`. -/
theorem kind_of_formula_record (coord f : Str) (hc : isValidCoordinate coord = true) :
    (Split ("cell:".toList ++ coord ++ ":vtf:n:0:".toList ++ f) ":".toList).getD 2 [] =
      "vtf".toList := by
  have e2 : ":".toList = [':'] := rfl
  have hshape : "cell:".toList ++ coord ++ ":vtf:n:0:".toList ++ f =
      "cell".toList ++ ':' :: (coord ++ ':' :: ("vtf".toList ++ ':' ::
        ("n:0:".toList ++ f))) := by simp
  rw [hshape, e2, Split_single, splitGo_append_sep _ _ _ (by decide),
    splitGo_append_sep _ _ _ (colon_not_mem_coordinate hc),
    splitGo_append_sep _ _ _ (by decide)]
  rfl

/-- The lines of the parser's output are the version line, one line for each
record, and the sheet line. -/
theorem Split_Parse_output (x : Str) :
    Split (Join ("version:1.4".toList :: ((Split x "\n".toList).filterMap recordOf ++
      ["sheet:c:10:r:20".toList])) "\n".toList) "\n".toList =
      "version:1.4".toList :: ((Split x "\n".toList).filterMap recordOf ++
        ["sheet:c:10:r:20".toList]) := by
  have e : "\n".toList = ['\n'] := rfl
  rw [e, Split_single]
  apply splitGo_Join _ _ (by simp)
  intro l hl
  rcases List.mem_cons.mp hl with rfl | hl
  · decide
  · rcases List.mem_append.mp hl with hl | hl
    · obtain ⟨line, hline, hsome⟩ := List.mem_filterMap.mp hl
      obtain ⟨_, _, _, _, _, _, hnl⟩ := recordOf_some hsome
      intro hm
      rw [Split_single] at hline
      exact not_mem_of_mem_splitGo '\n' x line hline (hnl hm)
    · rw [List.mem_singleton] at hl
      subst hl
      decide

/-- C16: for every string `s`, `escapeForSocialCalc s` contains no colon and no
newline; consequently, in the output of `ParseTouchCalcMSC` on any input `x`,
every record occupies a single line (the lines of the output are the version
line, one line per record of an input line, and the sheet line, so there are at
most two more output lines than input lines), and every text record, a line
starting with `cell:` whose third field is `t`, splits on colon into exactly the
4 fields `cell`, a valid coordinate, `t` and an escaped value. -/
theorem parse_text_records (x : Str) :
    (∀ s : Str, ':' ∉ escapeForSocialCalc s ∧ '\n' ∉ escapeForSocialCalc s) ∧
    ∃ out : Str, ParseTouchCalcMSC x = .ok out ∧
      Split out "\n".toList =
        "version:1.4".toList :: ((Split x "\n".toList).filterMap recordOf ++
          ["sheet:c:10:r:20".toList]) ∧
      (Split out "\n".toList).length ≤ (Split x "\n".toList).length + 2 ∧
      ∀ l ∈ Split out "\n".toList, HasPrefix l "cell:".toList = true →
        (Split l ":".toList).getD 2 [] = "t".toList →
        (Split l ":".toList).length = 4 ∧
        ∃ coord value : Str, isValidCoordinate coord = true ∧
          l = "cell:".toList ++ coord ++ ":t:".toList ++ escapeForSocialCalc value ∧
          Split l ":".toList = ["cell".toList, coord, "t".toList, escapeForSocialCalc value] := by
  refine ⟨fun s => ⟨(not_mem_escape s).2, (not_mem_escape s).1⟩, _, ParseTouchCalcMSC_eq x,
    Split_Parse_output x, ?_, ?_⟩
  · rw [Split_Parse_output]
    have := List.length_filterMap_le recordOf (Split x "\n".toList)
    simp only [List.length_cons, List.length_append, List.length_singleton, List.length_nil]
    omega
  · rw [Split_Parse_output]
    intro l hl hpre hkind
    rcases List.mem_cons.mp hl with rfl | hl
    · exact absurd hpre (by decide)
    · rcases List.mem_append.mp hl with hl | hl
      · obtain ⟨line, _, hsome⟩ := List.mem_filterMap.mp hl
        obtain ⟨coord, value, hc, hshape | hshape⟩ := recordOf_cases hsome
        · rw [hshape, kind_of_formula_record coord _ hc] at hkind
          exact absurd hkind (by decide)
        · have hf := (escaped_record_fields coord value hc).2.2
          rw [← hshape] at hf
          exact ⟨by rw [hf]; rfl, coord, value, hc, hshape, hf⟩
      · rw [List.mem_singleton] at hl
        subst hl
        exact absurd hpre (by decide)

/-- C16, at the input of the two lines `A1:a:b`, backslash, `c` and
`B2:=A1:A2`. -/
theorem parse_text_records_witness :
    ParseTouchCalcMSC "A1:a:b\\c\nB2:=A1:A2".toList =
      .ok "version:1.4\ncell:A1:t:a\\cb\\bc\ncell:B2:vtf:n:0:A1:A2\nsheet:c:10:r:20".toList ∧
    ∃ out : Str, ParseTouchCalcMSC "A1:a:b\\c\nB2:=A1:A2".toList = .ok out ∧
      Split out "\n".toList =
        "version:1.4".toList ::
          ((Split "A1:a:b\\c\nB2:=A1:A2".toList "\n".toList).filterMap recordOf ++
            ["sheet:c:10:r:20".toList]) ∧
      (Split out "\n".toList).length ≤
        (Split "A1:a:b\\c\nB2:=A1:A2".toList "\n".toList).length + 2 ∧
      ∀ l ∈ Split out "\n".toList, HasPrefix l "cell:".toList = true →
        (Split l ":".toList).getD 2 [] = "t".toList →
        (Split l ":".toList).length = 4 ∧
        ∃ coord value : Str, isValidCoordinate coord = true ∧
          l = "cell:".toList ++ coord ++ ":t:".toList ++ escapeForSocialCalc value ∧
          Split l ":".toList = ["cell".toList, coord, "t".toList, escapeForSocialCalc value] :=
  ⟨by decide, (parse_text_records "A1:a:b\\c\nB2:=A1:A2".toList).2⟩

end SocialCalc
